import Mathlib

/-!
Verification of the Run Orchestration Pipeline of the gov2private worker.

The definitions below are shallow embeddings of the TypeScript source:
  * `JValue` models JSON data (numbers are modeled as integers; IEEE floats
    and `NaN` are outside the model).
  * `deepMerge`, `createRun`, `saveRunPart`, `getHistory` embed
    `src/worker/UserStateSql.ts`.
  * The generative model is an external capability: each embedded function
    takes the (parsed or raw) model response as an explicit argument.
-/

set_option maxHeartbeats 1000000

namespace Gov2Private

/-- JSON-like values as produced by `JSON.parse` / Workers AI structured
output.  Numbers are modeled as integers. -/
inductive JValue where
  | null : JValue
  | bool (b : Bool) : JValue
  | num (n : Int) : JValue
  | str (s : String) : JValue
  | arr (elems : List JValue) : JValue
  | obj (fields : List (String × JValue)) : JValue
deriving Repr

/-- JS truthiness of a JSON value (`NaN` is outside the model). -/
def jsTruthy : JValue → Bool
  | .null => false
  | .bool b => b
  | .num n => n != 0
  | .str s => s ≠ ""
  | .arr _ => true
  | .obj _ => true

/-- Key-value view of a JS value, as used by both object spread `{...a}` and
property indexing `a[k]`: objects expose their fields, arrays and strings
expose their elements under decimal-string keys, primitives expose nothing. -/
def spreadFields : JValue → List (String × JValue)
  | .obj fs => fs
  | .arr xs => (xs.enum.map (fun p => (toString p.1, p.2)))
  | .str s => (s.toList.enum.map (fun p => (toString p.1, JValue.str (String.singleton p.2))))
  | _ => []

/-- JS property access `v[k]` (`none` = `undefined`). -/
def propGet (v : JValue) (k : String) : Option JValue :=
  (spreadFields v).lookup k

/-- JS property access `v?.k` restricted to plain objects; arrays and strings
have no named properties beyond indices. -/
def getProp (v : JValue) (k : String) : Option JValue :=
  match v with
  | .obj fs => fs.lookup k
  | _ => none

/-- JS nullish coalescing `x ?? d` where `none` = `undefined`. -/
def jsNullish (x : Option JValue) (d : JValue) : JValue :=
  match x with
  | some .null => d
  | some v => v
  | none => d

/-- JS truthy-or-none: `x ? f x : undefined` style access. -/
def jsTruthyOpt (x : Option JValue) : Option JValue :=
  match x with
  | some v => if jsTruthy v then some v else none
  | none => none

mutual

/-- JS `String(v)` conversion. -/
def jsToString : JValue → String
  | .null => "null"
  | .bool b => if b then "true" else "false"
  | .num n => toString n
  | .str s => s
  | .arr xs => String.intercalate "," (jsToStringList xs)
  | .obj _ => "[object Object]"

/-- Element printing of `Array.prototype.join` (null prints as ""). -/
def jsToStringList : List JValue → List String
  | [] => []
  | .null :: rest => "" :: jsToStringList rest
  | v :: rest => jsToString v :: jsToStringList rest

end

/-- Whitespace trimming on both ends (kernel-computable `trim`). -/
def trimChars (cs : List Char) : List Char :=
  ((cs.dropWhile Char.isWhitespace).reverse.dropWhile Char.isWhitespace).reverse

/-- `s.trim()`. -/
def jsTrim (s : String) : String :=
  ⟨trimChars s.toList⟩

/-- `s.toLowerCase()` (ASCII, kernel-computable). -/
def jsToLower (s : String) : String :=
  ⟨s.toList.map Char.toLower⟩

/-- Digits-only natural number reading (helper for `Number(string)`). -/
def readDigits : List Char → Option Nat
  | [] => none
  | cs => cs.foldl (fun acc c => match acc with
      | none => none
      | some n => if c.isDigit then some (n * 10 + (c.toNat - 48)) else none) (some 0)

/-- JS `Number(v)` conversion restricted to the integer fragment
(`none` stands for `NaN`; fractional, exponent and hex forms are outside
the model). -/
def jsToNumber : JValue → Option Int
  | .null => some 0
  | .bool b => some (if b then 1 else 0)
  | .num n => some n
  | .str s =>
      match trimChars s.toList with
      | [] => some 0
      | '-' :: rest => (readDigits rest).map (fun n => -(n : Int))
      | cs => (readDigits cs).map (fun n => (n : Int))
  | .arr [] => some 0
  | .arr [x] => jsToNumber x
  | .arr _ => none
  | .obj _ => none

/-- JS `s.slice(0, n)` for a nonnegative bound. -/
def jsTake (s : String) (n : Nat) : String :=
  ⟨s.toList.take n⟩

/-- JS assignment `out[k] = v` on a key-value list (also the shape of a SQL
upsert by primary key): replaces the value in place when the key is present,
appends otherwise. -/
def setKey {β : Type} (fs : List (String × β)) (k : String) (v : β) : List (String × β) :=
  if fs.any (fun p => p.1 = k) then
    fs.map (fun p => if p.1 = k then (k, v) else p)
  else fs ++ [(k, v)]

mutual

/-- The fold inside `deepMerge` (UserStateSql.ts): iterate `Object.entries(b)`
over the accumulator `out` (initially `{...a}`), reading recursive
sub-merges from the original `a`. -/
def deepMergeGo (a : JValue) (out : List (String × JValue)) :
    List (String × JValue) → List (String × JValue)
  | [] => out
  | (k, v) :: rest => deepMergeGo a (setKey out k (deepMergeVal a k v)) rest

/-- Per-entry value of `deepMerge`: a plain-object patch value is merged
recursively with `(a[k] ?? {})`, every other value (arrays, primitives,
null) replaces wholesale. -/
def deepMergeVal (a : JValue) (k : String) : JValue → JValue
  | .obj vf =>
      JValue.obj (deepMergeGo (mergeBase a k) (spreadFields (mergeBase a k)) vf)
  | v => v

/-- `(a as any)[k] ?? {}`: the existing value merged against, defaulting to
an empty object when absent or null. -/
def mergeBase (a : JValue) (k : String) : JValue :=
  match propGet a k with
  | some .null => .obj []
  | some x => x
  | none => .obj []

end

/-- `deepMerge(a, b)` from UserStateSql.ts, returning the merged field list. -/
def deepMerge (a b : JValue) : List (String × JValue) :=
  deepMergeGo a (spreadFields a) (spreadFields b)

/-- `deepMerge` as a JSON value. -/
def deepMergeV (a b : JValue) : JValue :=
  .obj (deepMerge a b)

/-- Duplicate-freedom of a key list, as a boolean. -/
def nodupKeys : List String → Bool
  | [] => true
  | k :: rest => !(rest.contains k) && nodupKeys rest

/- All object key lists (at every nesting level) are duplicate-free.  Real
JS objects satisfy this by construction. -/
mutual

def nodupDeep : JValue → Bool
  | .obj fs => nodupKeys (fs.map (fun p => p.1)) && nodupDeepFields fs
  | .arr xs => nodupDeepList xs
  | _ => true

def nodupDeepList : List JValue → Bool
  | [] => true
  | v :: rest => nodupDeep v && nodupDeepList rest

def nodupDeepFields : List (String × JValue) → Bool
  | [] => true
  | (_, v) :: rest => nodupDeep v && nodupDeepFields rest

end

/- ------------------------------------------------------------------ -/
/- Run store (UserStateSql.ts)                                         -/
/- ------------------------------------------------------------------ -/

/-- One row of the `runs` table / one `RunData` record. -/
structure RunData where
  id : String
  createdAt : String
  updatedAt : String
  status : String
  background : Option String := none
  targetRole : Option String := none
  selectedRoleId : Option String := none
  jobDescription : Option String := none
  jobDescriptionSource : Option String := none
  phases : JValue := .obj []
deriving Repr

/-- `Partial<RunData>`: an init/patch object whose absent fields are `none`. -/
structure RunInit where
  id : Option String := none
  createdAt : Option String := none
  updatedAt : Option String := none
  status : Option String := none
  background : Option String := none
  targetRole : Option String := none
  selectedRoleId : Option String := none
  jobDescription : Option String := none
  jobDescriptionSource : Option String := none
  phases : Option JValue := none
deriving Repr

/-- The SQLite `runs` table, keyed by the primary key `id`. -/
abbrev Store := List (String × RunData)

/-- `INSERT ... ON CONFLICT(id) DO UPDATE`: replace the row with the same
primary key in place, append otherwise. -/
def upsertRow (s : Store) (r : RunData) : Store :=
  setKey s r.id r

/-- `UserStateSql.createRun(id, init)`: read the existing row, merge `init`
over it (spread), pin `createdAt` to the base value, refresh `updatedAt`,
deep-merge `phases`, and upsert.  Returns the merged run and the new store. -/
def createRun (s : Store) (id now : String) (init : RunInit) : RunData × Store :=
  let base : RunData := (s.lookup id).getD
    { id := id, createdAt := now, updatedAt := now, status := "queued", phases := .obj [] }
  let merged : RunData := {
    id := init.id.getD base.id
    createdAt := base.createdAt
    updatedAt := now
    status := init.status.getD base.status
    background := init.background <|> base.background
    targetRole := init.targetRole <|> base.targetRole
    selectedRoleId := init.selectedRoleId <|> base.selectedRoleId
    jobDescription := init.jobDescription <|> base.jobDescription
    jobDescriptionSource := init.jobDescriptionSource <|> base.jobDescriptionSource
    phases := .obj (deepMerge base.phases (init.phases.getD (.obj [])))
  }
  (merged, upsertRow s merged)

/-- `UserStateSql.saveRunPart(id, patch)`: synthesize the updated run from
the current row (if any) with patch-wins-else-keep on scalar fields, a
`"running"` status default, a deep-merged `phases`, and upsert.  Note that a
missing run is NOT an error: a fresh run is synthesized. -/
def saveRunPart (s : Store) (id now : String) (patch : RunInit) : RunData × Store :=
  let current := s.lookup id
  let updated : RunData := {
    id := id
    createdAt := (current.map (fun r => r.createdAt)).getD now
    updatedAt := now
    status := patch.status.getD ((current.map (fun r => r.status)).getD "running")
    background := patch.background <|> current.bind (fun r => r.background)
    targetRole := patch.targetRole <|> current.bind (fun r => r.targetRole)
    selectedRoleId := patch.selectedRoleId <|> current.bind (fun r => r.selectedRoleId)
    jobDescription := patch.jobDescription <|> current.bind (fun r => r.jobDescription)
    jobDescriptionSource := patch.jobDescriptionSource <|> current.bind (fun r => r.jobDescriptionSource)
    phases := .obj (deepMerge ((current.map (fun r => r.phases)).getD (.obj [])) (patch.phases.getD (.obj [])))
  }
  (updated, upsertRow s updated)

/-- A row of the recency listing returned by `getHistory`. -/
structure RunIndexItem where
  id : String
  createdAt : String
  status : String
  targetRole : Option String
deriving Repr, DecidableEq

attribute [simp] RunIndexItem.mk.injEq

/-- `UserStateSql.getHistory(limit)`:
`SELECT id, created_at, status, target_role FROM runs ORDER BY updated_at DESC LIMIT ?`. -/
def getHistory (s : Store) (limit : Nat) : List RunIndexItem :=
  (((s.map (fun p => p.2)).mergeSort (fun a b => decide (b.updatedAt ≤ a.updatedAt))).take limit).map
    (fun r => { id := r.id, createdAt := r.createdAt, status := r.status, targetRole := r.targetRole })

/- ------------------------------------------------------------------ -/
/- Bullet Transform Engine (ai.ts transformBulletsBatch)               -/
/- ------------------------------------------------------------------ -/

/-- Split a character list at every `'\n'`. -/
def splitOnNl : List Char → List (List Char)
  | [] => [[]]
  | c :: rest =>
      if c = '\n' then [] :: splitOnNl rest
      else
        match splitOnNl rest with
        | [] => [[c]]
        | g :: gs => (c :: g) :: gs

/-- Drop one trailing `'\r'` (the `\r` consumed by `/\r?\n/`). -/
def stripTrailCr (g : List Char) : List Char :=
  match g.getLast? with
  | some '\r' => g.dropLast
  | _ => g

/-- Render split groups: every group but the last was followed by a `'\n'`
and surrenders one trailing `'\r'` to the `/\r?\n/` separator. -/
def renderPieces : List (List Char) → List String
  | [] => []
  | [g] => [⟨g⟩]
  | g :: gs => ⟨stripTrailCr g⟩ :: renderPieces gs

/-- Split on `/\r?\n/`. -/
def splitLinesJS (s : String) : List String :=
  renderPieces (splitOnNl s.toList)

/-- Character class `[-–•\d.]` of the fallback line-cleaning regex. -/
def isBulletMark1 (c : Char) : Bool :=
  c = '-' || c = '–' || c = '•' || c.isDigit || c = '.'

/-- Character class `[-–•]` of the final output-cleaning regex. -/
def isBulletMark2 (c : Char) : Bool :=
  c = '-' || c = '–' || c = '•'

/-- Character class `["']` (the quote characters stripped at both ends). -/
def isQuoteMark (c : Char) : Bool :=
  c = '"' || c = '\''

/-- `replace(/^\s*[-–•\d.]+\s*/, "")`: leading whitespace, then at least one
marker character, then whitespace; no change when no marker follows the
leading whitespace. -/
def stripLeadMarks (s : String) : String :=
  let t := s.toList.dropWhile Char.isWhitespace
  match t with
  | [] => s
  | c :: _ => if isBulletMark1 c then ⟨(t.dropWhile isBulletMark1).dropWhile Char.isWhitespace⟩ else s

/-- `replace(/^\s*[-–•]\s*/, "")`: leading whitespace, exactly one marker
character, then whitespace; no change when no marker follows. -/
def stripLeadMarkOne (s : String) : String :=
  let t := s.toList.dropWhile Char.isWhitespace
  match t with
  | [] => s
  | c :: rest => if isBulletMark2 c then ⟨rest.dropWhile Char.isWhitespace⟩ else s

/-- `replace(/^["']|["']$/g, "")`: one leading and one trailing quote
character are removed (a single-character quote string becomes empty). -/
def stripQuoteMarks (s : String) : String :=
  match s.toList with
  | [] => ""
  | [c] => if isQuoteMark c then "" else s
  | c :: rest =>
      let mid := if isQuoteMark c then rest else c :: rest
      match mid.getLast? with
      | some d => if isQuoteMark d then ⟨mid.dropLast⟩ else ⟨mid⟩
      | none => ⟨mid⟩

/-- The output normalization applied to every returned bullet:
`String(s).replace(/^\s*[-–•]\s*/, "").replace(/^["']|["']$/g, "").trim().slice(0, 300)`. -/
def cleanBulletOut (s : String) : String :=
  jsTake (jsTrim (stripQuoteMarks (stripLeadMarkOne s))) 300

/-- One line of the fallback response:
`.replace(/^\s*[-–•\d.]+\s*/, "").replace(/^["']|["']$/g, "").trim()`. -/
def cleanFallbackLine (s : String) : String :=
  jsTrim (stripQuoteMarks (stripLeadMarks s))

/-- The fallback response split into cleaned non-empty lines
(`text.split(/\r?\n/).map(clean).filter(Boolean)`). -/
def fallbackLines (text : String) : List String :=
  ((splitLinesJS text).map cleanFallbackLine).filter (fun l => l ≠ "")

/-- The schema-path result of `transformBulletsBatch`: the parsed `bullets`
array when it exists and has exactly the requested count.  (When the count
is zero both the schema path and the fallback path yield `[]`, so the
`if (!out.length)` re-dispatch of the source is output-equivalent.) -/
def schemaBulletsOut (resp : Option JValue) (n : Nat) : Option (List JValue) :=
  match resp with
  | some p =>
      match getProp p "bullets" with
      | some (.arr l) => if l.length = n then some l else none
      | _ => none
  | none => none

/-- `ai.ts transformBulletsBatch(bullets, instruction, indexes)`.  The two
model responses are explicit arguments: `schemaResp` is the parsed result of
the schema-constrained call (`none` when that call failed), `fallbackText`
is the raw text of the plain fallback call.  The style instruction only
affects the prompt, not the output shape. -/
def transformBulletsBatch (bullets : List String) (indexes : List Nat)
    (schemaResp : Option JValue) (fallbackText : String) : List String :=
  match schemaBulletsOut schemaResp indexes.length with
  | some l => l.map (fun v => cleanBulletOut (jsToString v))
  | none =>
      let lines := fallbackLines fallbackText
      (indexes.enum.map (fun p =>
        match lines.get? p.1 with
        | some ln => ln
        | none => bullets.getD p.2 "")).map cleanBulletOut

/- ------------------------------------------------------------------ -/
/- Role Discovery (ai.ts normalizeResume / proposeRoles)               -/
/- ------------------------------------------------------------------ -/

/-- `x ?? null` as an `Option` (`none` = null). -/
def jsNullableOpt (x : Option JValue) : Option JValue :=
  match x with
  | some .null => none
  | some v => some v
  | none => none

/-- `x ? String(x).slice(0, cap) : undefined`. -/
def truthyStr (x : Option JValue) (cap : Nat) : Option String :=
  match jsTruthyOpt x with
  | some v => some (jsTake (jsToString v) cap)
  | none => none

/-- `String(x ?? "").slice(0, cap) || dflt`. -/
def strWithDefault (x : Option JValue) (cap : Nat) (dflt : String) : String :=
  let s := jsTake (jsToString (jsNullish x (.str ""))) cap
  if s = "" then dflt else s

structure Contact where
  email : Option JValue := none
  phone : Option JValue := none
  location : Option JValue := none
  links : List String := []
deriving Repr

structure EducationItem where
  degree : String
  field : Option String := none
  institution : String
  year : Option String := none
deriving Repr

structure ExperienceItem where
  title : String
  org : String
  location : Option String := none
  start : Option String := none
  endDate : Option String := none
  bullets : List String := []
  skills : List String := []
deriving Repr

/-- `NormalizedData` as shaped by `ai.ts shapeReturn` (field values that the
source leaves as raw JSON stay `JValue`). -/
structure NormalizedData where
  name : Option JValue := none
  contact : Contact := {}
  summary : Option JValue := none
  education : List EducationItem := []
  skills : List String := []
  certifications : List String := []
  experience : List ExperienceItem := []
deriving Repr

/-- The loop body of `uniqLowerTrim`: lowercase, trim, drop empties, dedup
(insertion order), stop as soon as the accumulated count reaches `cap`. -/
def uniqLowerTrimGo (cap : Nat) : List JValue → List String → List String
  | [], acc => acc
  | x :: rest, acc =>
      let s := jsTrim (jsToLower (jsToString x))
      if s = "" then uniqLowerTrimGo cap rest acc
      else
        let acc2 := if acc.contains s then acc else acc ++ [s]
        if cap ≤ acc2.length then acc2 else uniqLowerTrimGo cap rest acc2

/-- `ai.ts uniqLowerTrim(a, cap)`. -/
def uniqLowerTrim (v : JValue) (cap : Nat) : List String :=
  match v with
  | .arr xs => uniqLowerTrimGo cap xs []
  | _ => []

/-- `ai.ts shapeReturn(j)`: defensive shaping of the parsed normalization
response. -/
def shapeReturn (j : JValue) : NormalizedData :=
  let cGet := fun k => match getProp j "contact" with
    | some c => getProp c k
    | none => none
  { name := jsNullableOpt (getProp j "name")
    contact := {
      email := jsNullableOpt (cGet "email")
      phone := jsNullableOpt (cGet "phone")
      location := jsNullableOpt (cGet "location")
      links := match cGet "links" with
        | some (.arr l) => (l.take 10).map (fun x => jsTake (jsToString x) 200)
        | _ => [] }
    summary := jsNullableOpt (getProp j "summary")
    education := match getProp j "education" with
      | some (.arr l) => (l.take 10).map (fun e => {
          degree := strWithDefault (getProp e "degree") 120 "Degree"
          field := truthyStr (getProp e "field") 160
          institution := strWithDefault (getProp e "institution") 200 "Institution"
          year := truthyStr (getProp e "year") 10 })
      | _ => []
    skills := uniqLowerTrim (jsNullish (getProp j "skills") (.arr [])) 100
    certifications := uniqLowerTrim (jsNullish (getProp j "certifications") (.arr [])) 20
    experience := match getProp j "experience" with
      | some (.arr l) => (l.take 8).map (fun r => {
          title := strWithDefault (getProp r "title") 120 "Role"
          org := strWithDefault (getProp r "org") 160 "Organization"
          location := truthyStr (getProp r "location") 120
          start := truthyStr (getProp r "start") 40
          endDate := truthyStr (getProp r "end") 40
          bullets := match getProp r "bullets" with
            | some (.arr bs) => (bs.take 4).map (fun b => jsTake (jsToString b) 220)
            | _ => []
          skills := uniqLowerTrim (jsNullish (getProp r "skills") (.arr [])) 20 })
      | _ => [] }

/-- The all-empty `NormalizedData` literal returned by `normalizeResume` for
empty input and on model failure. -/
def emptyNormalized : NormalizedData := {}

/-- `ai.ts normalizeResume(ai, model, resumeText, background)`.  The second
component counts model calls (`ai.run` invocations); `modelResp` is the
parsed schema response of the single call (`none` when the call failed or
its response could not be coerced to an object). -/
def normalizeResume (resumeText background : String) (modelResp : Option JValue) :
    NormalizedData × Nat :=
  let input := jsTake resumeText 12000
  let bg := jsTake background 4000
  if input = "" && bg = "" then (emptyNormalized, 0)
  else
    match modelResp with
    | some parsed => (shapeReturn parsed, 1)
    | none => (emptyNormalized, 1)

/-- `JobRole` as produced by `ai.ts proposeRoles`. -/
structure JobRole where
  id : String
  title : String
  company : Option String := none
  description : String := ""
  requirements : Option (List String) := none
  score : Option Int := none
  source : String := "ai"
deriving Repr

/-- The per-candidate shaping of `proposeRoles` (`Number` of a non-numeric
string is `NaN`, which is outside the integer model of JSON numbers). -/
def shapeRole (i : Nat) (c : JValue) : JobRole :=
  { id := jsTake (jsToString (jsNullish (getProp c "id") (.str ("role-" ++ toString (i + 1))))) 64
    title := jsTake (jsToString (jsNullish (getProp c "title") (.str ""))) 80
    company := truthyStr (getProp c "company") 120
    description := jsTake (jsToString (jsNullish (getProp c "description") (.str ""))) 500
    requirements := match getProp c "requirements" with
      | some (.arr l) => some ((l.take 20).map (fun r => jsTake (jsToString r) 100))
      | _ => none
    score := match jsTruthyOpt (getProp c "score") with
      | some v => (jsToNumber v).map (fun n => max 0 (min 100 n))
      | none => none
    source := "ai" }

/-- The fixed fallback candidates of `ai.ts proposeRoles`. -/
def fallbackRoles : List JobRole := [
  { id := "fallback-1", title := "Data Analyst",
    description := "Analyze data to help organizations make informed decisions. Use SQL, Python, and visualization tools." },
  { id := "fallback-2", title := "Business Intelligence Analyst",
    description := "Create dashboards and reports to support business decision-making." },
  { id := "fallback-3", title := "Software Developer",
    description := "Build and maintain software applications using modern development practices." }]

/-- `parsed && Array.isArray(parsed.candidates) ? parsed.candidates : []`. -/
def candidatesOf (parsed : Option JValue) : List JValue :=
  match parsed with
  | some p =>
      if jsTruthy p then
        match getProp p "candidates" with
        | some (.arr cs) => cs
        | _ => []
      else []
  | none => []

/-- `ai.ts proposeRoles`: shape up to 10 candidates from the parsed model
response (`none` = the schema call failed), substituting the fixed fallback
set when no candidate survives. -/
def proposeRoles (parsed : Option JValue) : List JobRole :=
  let out := ((candidatesOf parsed).take 10).enum.map (fun p => shapeRole p.1 p.2)
  if out.length = 0 then fallbackRoles else out

/- ------------------------------------------------------------------ -/
/- Edit Intent Resolver, model-parse layer (index.ts)                  -/
/- ------------------------------------------------------------------ -/

/-- One experience entry as consumed by the intent extractor (`title` and
`org` only feed the prompt; `bullets` bounds the index validation). -/
structure ExpJob where
  title : String := ""
  org : String := ""
  bullets : List String := []
deriving Repr

/-- Ascending insertion (kernel-computable model of `.sort((a,b)=>a-b)`). -/
def insertSorted (x : Int) : List Int → List Int
  | [] => [x]
  | y :: rest => if x ≤ y then x :: y :: rest else y :: insertSorted x rest

/-- Ascending sort of the clamped bullet indices. -/
def sortInts : List Int → List Int
  | [] => []
  | x :: rest => insertSorted x (sortInts rest)

structure BulletTarget where
  jobIdx : Int
  bulletIndices : List Int
deriving Repr, DecidableEq

structure TransformIntent where
  style : Option JValue := none
  targets : List BulletTarget := []
  confidence : Int := 0
deriving Repr

/-- The `filter(shape).map(clamp)` pass of `extractBulletTransformIntent`.
Returns `none` when the source would throw inside the `try` block (a `null`
target passes the `typeof target === "object"` shape test but throws on
property access; with an empty experience list `experience[clampedIdx]` is
`undefined` and `.bullets` throws), which the source catches, returning
`null` for the whole intent. -/
def clampTargets (experience : List ExpJob) : List JValue → Option (List BulletTarget)
  | [] => some []
  | .null :: _ => none
  | .obj fs :: rest =>
      match fs.lookup "jobIdx", fs.lookup "bulletIndices" with
      | some (.num j), some (.arr idxs) =>
          let jobIdx : Int := max 0 (min j ((experience.length : Int) - 1))
          match experience.get? jobIdx.toNat with
          | none => none
          | some job =>
              let maxB : Int := (job.bullets.length : Int) - 1
              let bi := sortInts (idxs.filterMap (fun v => match v with
                  | .num i => if 0 ≤ i ∧ i ≤ maxB then some i else none
                  | _ => none))
              (clampTargets experience rest).map (fun ts => ⟨jobIdx, bi⟩ :: ts)
      | _, _ => clampTargets experience rest
  | _ :: rest => clampTargets experience rest

/-- `index.ts extractBulletTransformIntent(ai, model, experience, userMsg)`,
with the parsed model response (`tryParseJson` of the raw text) as an
explicit argument.  The `confidence > 0.5` guard becomes `0 < confidence` in
the integer model of JSON numbers. -/
def extractBulletTransformIntent (experience : List ExpJob) (parsed : Option JValue) :
    Option TransformIntent :=
  match parsed with
  | none => none
  | some p =>
      if jsTruthy p then
        match getProp p "confidence", getProp p "targets" with
        | some (.num conf), some (.arr targets) =>
            if 0 < conf then
              match clampTargets experience targets with
              | some ts =>
                  match ts.filter (fun t => t.bulletIndices.length > 0) with
                  | [] => none
                  | valid => some { style := jsTruthyOpt (getProp p "style")
                                    targets := valid
                                    confidence := conf }
              | none => none
            else none
        | _, _ => none
      else none

/- ------------------------------------------------------------------ -/
/- AI Task Executor (part 5 aiJsonWithRetry / tryParseJson / salvage)  -/
/- ------------------------------------------------------------------ -/

/-- JSON whitespace skipping. -/
def skipWs : List Char → List Char
  | [] => []
  | c :: rest => if c = ' ' || c = '\t' || c = '\n' || c = '\r' then skipWs rest else c :: rest

/-- Hexadecimal digit value. -/
def hexVal (c : Char) : Option Nat :=
  if c.isDigit then some (c.toNat - 48)
  else if 'a' ≤ c && c ≤ 'f' then some (c.toNat - 87)
  else if 'A' ≤ c && c ≤ 'F' then some (c.toNat - 55)
  else none

/-- JSON string body (after the opening quote), with the standard escapes. -/
def parseStringGo : List Char → List Char → Option (String × List Char)
  | acc, '"' :: rest => some (⟨acc.reverse⟩, rest)
  | acc, '\\' :: esc :: rest =>
      if esc = '"' then parseStringGo ('"' :: acc) rest
      else if esc = '\\' then parseStringGo ('\\' :: acc) rest
      else if esc = '/' then parseStringGo ('/' :: acc) rest
      else if esc = 'b' then parseStringGo ('\x08' :: acc) rest
      else if esc = 'f' then parseStringGo ('\x0c' :: acc) rest
      else if esc = 'n' then parseStringGo ('\n' :: acc) rest
      else if esc = 'r' then parseStringGo ('\r' :: acc) rest
      else if esc = 't' then parseStringGo ('\t' :: acc) rest
      else if esc = 'u' then
        match rest with
        | a :: b :: c :: d :: rest2 =>
            match hexVal a, hexVal b, hexVal c, hexVal d with
            | some x, some y, some z, some w =>
                parseStringGo (Char.ofNat (((x * 16 + y) * 16 + z) * 16 + w) :: acc) rest2
            | _, _, _, _ => none
        | _ => none
      else none
  | acc, c :: rest => if c.toNat < 32 then none else parseStringGo (c :: acc) rest
  | _, [] => none

/-- Digit run accumulation. -/
def parseDigitsGo : List Char → Nat → Nat × List Char
  | c :: rest, acc => if c.isDigit then parseDigitsGo rest (acc * 10 + (c.toNat - 48)) else (acc, c :: rest)
  | [], acc => (acc, [])

/-- At least one digit. -/
def parseDigitsJ : List Char → Option (Nat × List Char)
  | c :: rest => if c.isDigit then some (parseDigitsGo rest (c.toNat - 48)) else none
  | [] => none

mutual

/-- Recursive-descent JSON reader (fuelled; numbers restricted to the
integer fragment — see the note on `JValue`).  Mirrors `JSON.parse` on the
fragment used by this code base. -/
def parseJVal (fuel : Nat) (cs : List Char) : Option (JValue × List Char) :=
  match fuel with
  | 0 => none
  | fuel + 1 =>
    match skipWs cs with
    | [] => none
    | 'n' :: rest => if ['u','l','l'].isPrefixOf rest then some (JValue.null, rest.drop 3) else none
    | 't' :: rest => if ['r','u','e'].isPrefixOf rest then some (JValue.bool true, rest.drop 3) else none
    | 'f' :: rest => if ['a','l','s','e'].isPrefixOf rest then some (JValue.bool false, rest.drop 4) else none
    | '"' :: rest => (parseStringGo [] rest).map (fun p => (JValue.str p.1, p.2))
    | '-' :: rest => (parseDigitsJ rest).map (fun p => (JValue.num (-(p.1 : Int)), p.2))
    | '[' :: rest => parseArrJ fuel (skipWs rest)
    | '\x7b' :: rest => parseObjJ fuel (skipWs rest)
    | c :: rest =>
        if c.isDigit then (parseDigitsJ (c :: rest)).map (fun p => (JValue.num ((p.1 : Int)), p.2))
        else none

def parseArrJ (fuel : Nat) (cs : List Char) : Option (JValue × List Char) :=
  match fuel with
  | 0 => none
  | fuel + 1 =>
    match cs with
    | ']' :: rest => some (JValue.arr [], rest)
    | _ => (parseJVal fuel cs).bind (fun p => parseArrTail fuel p.2 [p.1])

def parseArrTail (fuel : Nat) (cs : List Char) (acc : List JValue) : Option (JValue × List Char) :=
  match fuel with
  | 0 => none
  | fuel + 1 =>
    match skipWs cs with
    | ']' :: rest => some (JValue.arr acc, rest)
    | ',' :: rest => (parseJVal fuel rest).bind (fun p => parseArrTail fuel p.2 (acc ++ [p.1]))
    | _ => none

def parseObjJ (fuel : Nat) (cs : List Char) : Option (JValue × List Char) :=
  match fuel with
  | 0 => none
  | fuel + 1 =>
    match cs with
    | '\x7d' :: rest => some (JValue.obj [], rest)
    | _ => parseObjEntry fuel cs []

def parseObjEntry (fuel : Nat) (cs : List Char) (acc : List (String × JValue)) :
    Option (JValue × List Char) :=
  match fuel with
  | 0 => none
  | fuel + 1 =>
    match skipWs cs with
    | '"' :: rest =>
        (parseStringGo [] rest).bind (fun pk =>
          match skipWs pk.2 with
          | ':' :: rest2 =>
              (parseJVal fuel rest2).bind (fun pv =>
                match skipWs pv.2 with
                | ',' :: rest3 => parseObjEntry fuel rest3 (setKey acc pk.1 pv.1)
                | '\x7d' :: rest3 => some (JValue.obj (setKey acc pk.1 pv.1), rest3)
                | _ => none)
          | _ => none)
    | _ => none

end

/-- `stripFences`: `s.replace(/```json|```/g, "")` (scan left to right,
preferring the longer alternative at each position). -/
def stripFencesGo : List Char → List Char
  | '\x60' :: '\x60' :: '\x60' :: 'j' :: 's' :: 'o' :: 'n' :: rest => stripFencesGo rest
  | '\x60' :: '\x60' :: '\x60' :: rest => stripFencesGo rest
  | c :: rest => c :: stripFencesGo rest
  | [] => []

/-- `part 5 tryParseJson(s)`: strip markdown fences, trim, `JSON.parse`,
`null` (here `none`) on failure. -/
def tryParseJson (s : String) : Option JValue :=
  let t := jsTrim (String.mk (stripFencesGo s.toList))
  match parseJVal (t.length + 1) t.toList with
  | some (v, rest) => if skipWs rest = [] then some v else none
  | none => none

/-- `text.indexOf("{")` (−1 when absent). -/
def firstBraceIdx (s : String) : Int :=
  match s.toList.findIdx? (fun c => c = '\x7b') with
  | some i => (i : Int)
  | none => -1

/-- JS `s.slice(a, b)` with the negative-index and clamping rules. -/
def jsSliceII (s : String) (a b : Int) : String :=
  let len : Int := (s.length : Int)
  let a' := if a < 0 then max 0 (len + a) else min a len
  let b' := if b < 0 then max 0 (len + b) else min b len
  if a' < b' then ⟨(s.toList.drop a'.toNat).take (b' - a').toNat⟩ else ""

/-- The close-brace candidate positions of the salvage loop: indices `i`
with `start ≤ i < min(len, start + 4000)` holding `'}'`, in ascending
order (`start` is the index of the first `'{'`, or −1). -/
def salvageCandidates (text : String) : List Nat :=
  let start := firstBraceIdx text
  (List.range (min text.length (start + 4000).toNat)).filter
    (fun i => decide (start ≤ (i : Int)) && decide (text.toList.get? i = some '\x7d'))

/-- One iteration of the salvage loop of `aiJsonWithRetry`: take the
substring `text.slice(start, e + 1)` and keep it when it parses to a truthy
value (`if (p) { json = p; text = sub; break; }`). -/
def salvageTry (text : String) (start : Int) (e : Nat) : Option (String × JValue) :=
  let sub := jsSliceII text start ((e : Int) + 1)
  match tryParseJson sub with
  | some p => if jsTruthy p then some (sub, p) else none
  | none => none

/-- The salvage pass proper: scan the candidates from the last one backward
and return the first `(sub, parse)` hit. -/
def salvage (text : String) : Option (String × JValue) :=
  let start := firstBraceIdx text
  (salvageCandidates text).reverse.findSome? (salvageTry text start)

/-- JS truthiness of an optional string (the `parseHint &&` guard). -/
def jsStrTruthy (x : Option String) : Bool :=
  match x with
  | some h => h ≠ ""
  | none => false

/-- JS truthiness of a `tryParseJson` result (`!json` tests): a JS `null`
(`none`) is falsy, and so is a successfully parsed falsy value (`0`,
`false`, `""`, `null`). -/
def jsonTruthy (x : Option JValue) : Bool :=
  match x with
  | some v => jsTruthy v
  | none => false

structure AiJsonResult where
  text : String
  json : Option JValue
  calls : Nat
deriving Repr

/-- `part 5 aiJsonWithRetry(ai, model, messages, parseHint)`.  The model
responses of the initial call and of the (at most one) corrective retry are
the explicit arguments `resp1` and `resp2` (already normalized to text);
`calls` counts `ai.run` invocations. -/
def aiJsonWithRetry (resp1 resp2 : String) (parseHint : Option String) : AiJsonResult :=
  let j1 := tryParseJson resp1
  let step : String × Option JValue × Nat :=
    if !jsonTruthy j1 && jsStrTruthy parseHint then (resp2, tryParseJson resp2, 2)
    else (resp1, j1, 1)
  match step with
  | (text, json, calls) =>
      if jsonTruthy json then ⟨text, json, calls⟩
      else
        match salvage text with
        | some (sub, p) => ⟨sub, some p, calls⟩
        | none => ⟨text, json, calls⟩

/- ------------------------------------------------------------------ -/
/- Chat persistence (index.ts reply / chat handlers)                   -/
/- ------------------------------------------------------------------ -/

structure ChatTurn where
  role : String
  content : String
deriving Repr, DecidableEq

/-- Modelled from the spec: `toChatTurns` (exported by `types/run.ts`, a
file not among the provided sources) coerces the raw persisted chat phase
into a list of `{role: user|assistant, content}` ChatTurns; on an already
well-formed turn list it is the identity. -/
def toChatTurns (raw : List ChatTurn) : List ChatTurn := raw

/-- JS `list.slice(-n)` for positive `n`. -/
def jsSliceLast (l : List α) (n : Nat) : List α := l.drop (l.length - n)

/-- The chat persistence step shared by the `reply` helper of `/api/chat`
and the `/api/run/:id/chat` handler paths: truncate the prior history to the
last 12 turns, then append the user turn and the assistant turn; the result
is what `saveRunPart` persists as `phases.chat`. -/
def persistedChat (rawHistory : List ChatTurn) (userMsg replyText : String) : List ChatTurn :=
  jsSliceLast (toChatTurns rawHistory) 12 ++
    [{ role := "user", content := userMsg }, { role := "assistant", content := replyText }]

/- ------------------------------------------------------------------ -/
/- POST /api/run/:id/bullets/transform (index.ts)                      -/
/- ------------------------------------------------------------------ -/

/-- The valid keys of `BULLET_STYLE_INSTRUCTIONS`. -/
def bulletStyles : List String := ["quant", "short", "lead", "ats", "dejargon"]

/-- `[...new Set(xs)]`: dedup keeping first occurrences. -/
def dedupFirstGo (seen : List Int) : List Int → List Int
  | [] => []
  | x :: rest =>
      if seen.contains x then dedupFirstGo seen rest
      else x :: dedupFirstGo (seen ++ [x]) rest

/-- All-strings view of a JSON array (the `string[]` type of `job.bullets`). -/
def strListOf : List JValue → Option (List String)
  | [] => some []
  | .str s :: rest => (strListOf rest).map (fun l => s :: l)
  | _ => none

/-- `targetIndex.forEach((i, k) => { newBullets[i] = rewritten[k] || bullets[i]; })`
applied to the copy `[...bullets]`. -/
def applyRewrites (bullets : List String) (targetIndex : List Nat) (rewritten : List String) :
    List String :=
  targetIndex.enum.foldl (fun acc p =>
    let rv := rewritten.getD p.1 ""
    acc.set p.2 (if rv ≠ "" then rv else bullets.getD p.2 "")) bullets

/-- The validated target indices: the deduplicated in-range request indices
when a non-empty `bulletIndexes` list is supplied, all indices otherwise. -/
def targetIndexOf (bullets : List String) (bulletIndexes : Option (List Int)) : List Nat :=
  match bulletIndexes with
  | some l =>
      if l.length > 0 then
        (dedupFirstGo [] (l.filter (fun i =>
          decide (0 ≤ i) && decide (i < (bullets.length : Int))))).map Int.toNat
      else List.range bullets.length
  | none => List.range bullets.length

/-- The default object of `run.phases?.normalize || {...}`. -/
def defaultNormalizeV : JValue :=
  .obj [("name", .null),
        ("contact", .obj [("email", .null), ("phone", .null), ("location", .null), ("links", .arr [])]),
        ("skills", .arr []), ("education", .arr []), ("experience", .arr []),
        ("certifications", .arr [])]

inductive TransformResp where
  | err (code : String)
  | ok (runId : String) (style : String) (jobIndex : Nat) (updated : Nat)
      (bulletIndexes : List Nat) (bullets : List String)
deriving Repr

/-- `POST /api/run/:id/bullets/transform` (index.ts).  The request body is
`{style?, jobIndex?, bulletIndexes?}`; the two model responses of the inner
`transformBulletsBatch` call are explicit arguments.  The `ill_typed_bullets`
error stands for the `TypeError` the source would raise (and turn into
`ai_error`) when a stored bullet is not a string; under the well-typedness
hypotheses of the theorems both codes describe the same no-write outcome. -/
def bulletsTransform (s : Store) (runId now : String)
    (style : Option String) (jobIndexB : Option Int) (bulletIndexes : Option (List Int))
    (schemaResp : Option JValue) (fallbackText : String) : Store × TransformResp :=
  match style with
  | none => (s, .err "invalid_style")
  | some st =>
    if !(bulletStyles.contains st) then (s, .err "invalid_style")
    else
      match s.lookup runId with
      | none => (s, .err "not_found")
      | some run =>
          let normalizeV := getProp run.phases "normalize"
          let experienceV := match normalizeV with
            | some nv => getProp nv "experience"
            | none => none
          match experienceV with
          | some (.arr experience) =>
              if experience.length = 0 then (s, .err "no_experience")
              else
                let jobIndex : Int := jobIndexB.getD 0
                if jobIndex < 0 ∨ (experience.length : Int) ≤ jobIndex then
                  (s, .err "invalid_job_index")
                else
                  match experience.get? jobIndex.toNat with
                  | none => (s, .err "invalid_job_index")
                  | some job =>
                      let bulletsV := match getProp job "bullets" with
                        | some v => if jsTruthy v then v else .arr []
                        | none => .arr []
                      match bulletsV with
                      | .arr bulletsJ =>
                          match strListOf bulletsJ with
                          | none => (s, .err "ill_typed_bullets")
                          | some bullets =>
                              if bullets.length = 0 then (s, .err "no_bullets")
                              else
                                let targetIndex : List Nat := targetIndexOf bullets bulletIndexes
                                if targetIndex.length = 0 then (s, .err "no_valid_indices")
                                else
                                  let rewritten := transformBulletsBatch bullets targetIndex schemaResp fallbackText
                                  let newBullets := applyRewrites bullets targetIndex rewritten
                                  let newJob := JValue.obj (setKey (spreadFields job) "bullets"
                                    (.arr (newBullets.map JValue.str)))
                                  let newExperience := experience.set jobIndex.toNat newJob
                                  let currentNormalize := match jsTruthyOpt normalizeV with
                                    | some nv => nv
                                    | none => defaultNormalizeV
                                  let patchNormalize := JValue.obj (setKey (spreadFields currentNormalize)
                                    "experience" (.arr newExperience))
                                  let patch : RunInit := { phases := some (.obj [("normalize", patchNormalize)]) }
                                  let s' := (saveRunPart s runId now patch).2
                                  (s', .ok runId st jobIndex.toNat targetIndex.length targetIndex newBullets)
                      | _ => (s, .err "ill_typed_bullets")
          | _ => (s, .err "no_experience")

end Gov2Private

/-!  Theorems.  First the association-list toolbox shared by the Run Store
and `deepMerge` developments, then the claim theorems. -/

namespace Gov2Private

theorem lookup_cons_self {β : Type} (l : List (String × β)) (k : String) (v : β) :
    List.lookup k ((k, v) :: l) = some v := by
  simp [List.lookup]

theorem lookup_cons_ne {β : Type} (l : List (String × β)) (k k' : String) (v : β)
    (h : k' ≠ k) : List.lookup k' ((k, v) :: l) = List.lookup k' l := by
  have hb : (k' == k) = false := beq_eq_false_iff_ne.2 h
  simp [List.lookup, hb]

theorem lookup_eq_none_iff {β : Type} (l : List (String × β)) (k : String) :
    List.lookup k l = none ↔ ∀ p ∈ l, p.1 ≠ k := by
  induction l with
  | nil => simp [List.lookup]
  | cons p rest ih =>
      obtain ⟨k0, v0⟩ := p
      by_cases h : k = k0
      · subst h
        simp [lookup_cons_self]
      · rw [lookup_cons_ne _ _ _ _ h, ih]
        constructor
        · intro hrest q hq
          rcases List.mem_cons.1 hq with rfl | hq
          · exact fun hh => h hh.symm
          · exact hrest q hq
        · intro hall q hq
          exact hall q (List.mem_cons_of_mem _ hq)

theorem lookup_append_none {β : Type} (l1 l2 : List (String × β)) (k : String)
    (h : List.lookup k l1 = none) :
    List.lookup k (l1 ++ l2) = List.lookup k l2 := by
  induction l1 with
  | nil => simp
  | cons p rest ih =>
      obtain ⟨k0, v0⟩ := p
      by_cases hk : k = k0
      · subst hk; rw [lookup_cons_self] at h; exact absurd h (by simp)
      · rw [List.cons_append, lookup_cons_ne _ _ _ _ hk]
        rw [lookup_cons_ne _ _ _ _ hk] at h
        exact ih h

theorem lookup_append_some {β : Type} (l1 l2 : List (String × β)) (k : String) (v : β)
    (h : List.lookup k l1 = some v) :
    List.lookup k (l1 ++ l2) = some v := by
  induction l1 with
  | nil => simp [List.lookup] at h
  | cons p rest ih =>
      obtain ⟨k0, v0⟩ := p
      by_cases hk : k = k0
      · subst hk
        rw [lookup_cons_self] at h
        rw [List.cons_append, lookup_cons_self]
        exact h
      · rw [List.cons_append, lookup_cons_ne _ _ _ _ hk]
        rw [lookup_cons_ne _ _ _ _ hk] at h
        exact ih h

theorem lookup_singleton_ne {β : Type} (k k' : String) (v : β) (h : k' ≠ k) :
    List.lookup k' [(k, v)] = none := by
  rw [lookup_cons_ne _ _ _ _ h]; rfl

theorem any_key_eq_isSome {β : Type} (l : List (String × β)) (k : String) :
    (l.any (fun p => p.1 = k)) = (List.lookup k l).isSome := by
  induction l with
  | nil => simp [List.lookup]
  | cons p rest ih =>
      obtain ⟨k0, v0⟩ := p
      by_cases h : k = k0
      · subst h; simp [lookup_cons_self]
      · have h0 : ¬ (k0 = k) := fun hh => h hh.symm
        rw [lookup_cons_ne _ _ _ _ h]
        simp only [List.any_cons, decide_eq_true_eq]
        simp [h0, ih]

theorem setKey_of_absent {β : Type} (fs : List (String × β)) (k : String) (v : β)
    (h : List.lookup k fs = none) : setKey fs k v = fs ++ [(k, v)] := by
  unfold setKey
  rw [any_key_eq_isSome, h]
  rfl

theorem setKey_of_present {β : Type} (fs : List (String × β)) (k : String) (v : β)
    (h : (List.lookup k fs).isSome) :
    setKey fs k v = fs.map (fun p => if p.1 = k then (k, v) else p) := by
  unfold setKey
  rw [any_key_eq_isSome, h]
  rfl

theorem lookup_map_setFun_self {β : Type} (fs : List (String × β)) (k : String) (v : β)
    (h : (List.lookup k fs).isSome) :
    List.lookup k (fs.map (fun p => if p.1 = k then (k, v) else p)) = some v := by
  induction fs with
  | nil => simp [List.lookup] at h
  | cons p rest ih =>
      obtain ⟨k0, v0⟩ := p
      by_cases hk : k0 = k
      · subst hk
        simp only [List.map_cons, if_pos rfl]
        exact lookup_cons_self _ _ _
      · have hk' : k ≠ k0 := fun hh => hk hh.symm
        rw [lookup_cons_ne _ _ _ _ hk'] at h
        simp only [List.map_cons, if_neg hk]
        rw [lookup_cons_ne _ _ _ _ hk']
        exact ih h

theorem lookup_setKey_self {β : Type} (fs : List (String × β)) (k : String) (v : β) :
    List.lookup k (setKey fs k v) = some v := by
  cases h : List.lookup k fs with
  | none =>
      rw [setKey_of_absent _ _ _ h, lookup_append_none _ _ _ h, lookup_cons_self]
  | some w =>
      rw [setKey_of_present _ _ _ (by simp [h])]
      exact lookup_map_setFun_self _ _ _ (by simp [h])

theorem lookup_map_setFun_ne {β : Type} (fs : List (String × β)) (k k' : String) (v : β)
    (h : k' ≠ k) :
    List.lookup k' (fs.map (fun p => if p.1 = k then (k, v) else p)) = List.lookup k' fs := by
  induction fs with
  | nil => simp
  | cons p rest ih =>
      obtain ⟨k0, v0⟩ := p
      by_cases hk : k0 = k
      · subst hk
        have hmap : List.map (fun p => if p.1 = k0 then (k0, v) else p) ((k0, v0) :: rest)
            = (k0, v) :: List.map (fun p => if p.1 = k0 then (k0, v) else p) rest := by
          simp
        rw [hmap, lookup_cons_ne _ _ _ _ h, lookup_cons_ne _ _ _ _ h]
        exact ih
      · simp only [List.map_cons, if_neg hk]
        by_cases hk' : k' = k0
        · subst hk'
          rw [lookup_cons_self, lookup_cons_self]
        · rw [lookup_cons_ne _ _ _ _ hk', lookup_cons_ne _ _ _ _ hk']
          exact ih

theorem lookup_setKey_ne {β : Type} (fs : List (String × β)) (k k' : String) (v : β)
    (h : k' ≠ k) : List.lookup k' (setKey fs k v) = List.lookup k' fs := by
  cases hf : List.lookup k fs with
  | none =>
      rw [setKey_of_absent _ _ _ hf]
      cases h' : List.lookup k' fs with
      | none => rw [lookup_append_none _ _ _ h', lookup_singleton_ne _ _ _ h]
      | some w => exact lookup_append_some _ _ _ _ h'
  | some w =>
      rw [setKey_of_present _ _ _ (by simp [hf])]
      exact lookup_map_setFun_ne _ _ _ _ h

theorem keys_map_setFun {β : Type} (fs : List (String × β)) (k : String) (v : β) :
    (fs.map (fun p => if p.1 = k then (k, v) else p)).map (fun p => p.1) =
      fs.map (fun p => p.1) := by
  induction fs with
  | nil => rfl
  | cons p rest ih =>
      obtain ⟨k0, v0⟩ := p
      by_cases hk : k0 = k
      · subst hk; simp [ih]
      · simp [hk, ih]

theorem keys_setKey_of_present {β : Type} (fs : List (String × β)) (k : String) (v : β)
    (h : (List.lookup k fs).isSome) :
    (setKey fs k v).map (fun p => p.1) = fs.map (fun p => p.1) := by
  rw [setKey_of_present _ _ _ h]
  exact keys_map_setFun _ _ _

theorem keys_setKey_of_absent {β : Type} (fs : List (String × β)) (k : String) (v : β)
    (h : List.lookup k fs = none) :
    (setKey fs k v).map (fun p => p.1) = fs.map (fun p => p.1) ++ [k] := by
  rw [setKey_of_absent _ _ _ h]
  simp

theorem nodup_keys_setKey {β : Type} (fs : List (String × β)) (k : String) (v : β)
    (h : (fs.map (fun p => p.1)).Nodup) :
    ((setKey fs k v).map (fun p => p.1)).Nodup := by
  cases hf : List.lookup k fs with
  | none =>
      rw [keys_setKey_of_absent _ _ _ hf]
      rw [List.nodup_append]
      refine ⟨h, List.nodup_singleton _, ?_⟩
      intro a ha hb
      rcases List.mem_singleton.1 hb with rfl
      rcases List.mem_map.1 ha with ⟨p, hp, hpk⟩
      exact (lookup_eq_none_iff _ _).1 hf p hp hpk
  | some w =>
      rw [keys_setKey_of_present _ _ _ (by simp [hf])]
      exact h

theorem map_setFun_id {β : Type} (fs : List (String × β)) (k : String) (v : β)
    (hnd : (fs.map (fun p => p.1)).Nodup) (h : List.lookup k fs = some v) :
    fs.map (fun p => if p.1 = k then (k, v) else p) = fs := by
  induction fs with
  | nil => rfl
  | cons p rest ih =>
      obtain ⟨k0, v0⟩ := p
      simp only [List.map_cons, List.nodup_cons] at hnd
      by_cases hk : k0 = k
      · subst hk
        rw [lookup_cons_self] at h
        have hv : v = v0 := by injection h with h; exact h.symm
        subst hv
        have hrest : rest.map (fun p => if p.1 = k0 then (k0, v) else p) = rest := by
          have hstep : ∀ q ∈ rest, (fun p => if p.1 = k0 then ((k0 : String), v) else p) q = id q := by
            intro q hq
            have hne : q.1 ≠ k0 := fun hqk => hnd.1 (hqk ▸ List.mem_map_of_mem _ hq)
            simp [hne]
          rw [List.map_congr_left hstep, List.map_id]
        simp only [List.map_cons, hrest]
        simp
      · have hk' : k ≠ k0 := fun hh => hk hh.symm
        rw [lookup_cons_ne _ _ _ _ hk'] at h
        simp only [List.map_cons, if_neg hk]
        rw [ih hnd.2 h]

theorem setKey_self_id {β : Type} (fs : List (String × β)) (k : String) (v : β)
    (hnd : (fs.map (fun p => p.1)).Nodup) (h : List.lookup k fs = some v) :
    setKey fs k v = fs := by
  rw [setKey_of_present _ _ _ (by simp [h])]
  exact map_setFun_id _ _ _ hnd h

theorem lookup_mem {β : Type} (fs : List (String × β)) (k : String) (v : β)
    (h : List.lookup k fs = some v) : (k, v) ∈ fs := by
  induction fs with
  | nil => simp [List.lookup] at h
  | cons p rest ih =>
      obtain ⟨k0, v0⟩ := p
      by_cases hk : k = k0
      · subst hk
        rw [lookup_cons_self] at h
        injection h with h
        subst h
        exact List.mem_cons_self _ _
      · rw [lookup_cons_ne _ _ _ _ hk] at h
        exact List.mem_cons_of_mem _ (ih h)

theorem lookup_of_mem_nodup {β : Type} (fs : List (String × β)) (k : String) (v : β)
    (hmem : (k, v) ∈ fs) (hnd : (fs.map (fun p => p.1)).Nodup) :
    List.lookup k fs = some v := by
  induction fs with
  | nil => cases hmem
  | cons p rest ih =>
      obtain ⟨k0, v0⟩ := p
      simp only [List.map_cons, List.nodup_cons] at hnd
      rcases List.mem_cons.1 hmem with heq | hmem'
      · injection heq with h1 h2
        subst h1; subst h2
        exact lookup_cons_self _ _ _
      · have hk : k ≠ k0 := by
          intro hh
          subst hh
          exact hnd.1 (List.mem_map_of_mem _ hmem')
        rw [lookup_cons_ne _ _ _ _ hk]
        exact ih hmem' hnd.2

theorem nodupKeys_iff (l : List String) : nodupKeys l = true ↔ l.Nodup := by
  induction l with
  | nil => simp [nodupKeys]
  | cons k rest ih =>
      simp [nodupKeys, List.nodup_cons, ih, List.elem_iff]

theorem nodupDeepFields_mem (fs : List (String × JValue)) (p : String × JValue)
    (hf : nodupDeepFields fs = true) (hp : p ∈ fs) : nodupDeep p.2 = true := by
  induction fs with
  | nil => cases hp
  | cons q rest ih =>
      obtain ⟨k0, v0⟩ := q
      simp only [nodupDeepFields, Bool.and_eq_true] at hf
      rcases List.mem_cons.1 hp with rfl | hp'
      · exact hf.1
      · exact ih hf.2 hp'

theorem nodupDeep_obj_iff (fs : List (String × JValue)) :
    nodupDeep (.obj fs) = true ↔
      (nodupKeys (fs.map (fun p => p.1)) = true ∧ nodupDeepFields fs = true) := by
  simp [nodupDeep, Bool.and_eq_true]

/- `deepMerge` fold lemmas. -/

theorem deepMergeGo_nil (a : JValue) (out : List (String × JValue)) :
    deepMergeGo a out [] = out := by
  simp [deepMergeGo]

theorem deepMergeGo_cons (a : JValue) (out : List (String × JValue)) (k : String)
    (v : JValue) (rest : List (String × JValue)) :
    deepMergeGo a out ((k, v) :: rest) =
      deepMergeGo a (setKey out k (deepMergeVal a k v)) rest := by
  simp [deepMergeGo]

theorem deepMergeGo_lookup_none (a : JValue) (out es : List (String × JValue)) (k : String)
    (h : List.lookup k es = none) :
    List.lookup k (deepMergeGo a out es) = List.lookup k out := by
  induction es generalizing out with
  | nil => rw [deepMergeGo_nil]
  | cons p rest ih =>
      obtain ⟨k0, v0⟩ := p
      by_cases hk : k = k0
      · subst hk
        rw [lookup_cons_self] at h
        exact absurd h (by simp)
      · rw [lookup_cons_ne _ _ _ _ hk] at h
        rw [deepMergeGo_cons, ih _ h, lookup_setKey_ne _ _ _ _ hk]

theorem deepMergeGo_lookup_mem (a : JValue) (out es : List (String × JValue))
    (k : String) (v : JValue)
    (hnd : (es.map (fun p => p.1)).Nodup) (h : List.lookup k es = some v) :
    List.lookup k (deepMergeGo a out es) = some (deepMergeVal a k v) := by
  induction es generalizing out with
  | nil => simp [List.lookup] at h
  | cons p rest ih =>
      obtain ⟨k0, v0⟩ := p
      simp only [List.map_cons, List.nodup_cons] at hnd
      by_cases hk : k = k0
      · subst hk
        rw [lookup_cons_self] at h
        injection h with h
        subst h
        have hrest : List.lookup k rest = none := by
          rw [lookup_eq_none_iff]
          intro q hq hqk
          exact hnd.1 (hqk ▸ List.mem_map_of_mem _ hq)
        rw [deepMergeGo_cons, deepMergeGo_lookup_none _ _ _ _ hrest, lookup_setKey_self]
      · rw [lookup_cons_ne _ _ _ _ hk] at h
        rw [deepMergeGo_cons]
        exact ih _ hnd.2 h

theorem deepMergeGo_append (a : JValue) (out es : List (String × JValue))
    (hnd : (es.map (fun p => p.1)).Nodup)
    (hdisj : ∀ p ∈ es, List.lookup p.1 out = none) :
    deepMergeGo a out es = out ++ es.map (fun p => (p.1, deepMergeVal a p.1 p.2)) := by
  induction es generalizing out with
  | nil => simp [deepMergeGo_nil]
  | cons p rest ih =>
      obtain ⟨k0, v0⟩ := p
      simp only [List.map_cons, List.nodup_cons] at hnd
      rw [deepMergeGo_cons,
        setKey_of_absent _ _ _ (hdisj (k0, v0) (List.mem_cons_self _ _))]
      rw [ih _ hnd.2 ?_]
      · simp
      · intro q hq
        have hqk : q.1 ≠ k0 := fun hh => hnd.1 (hh ▸ List.mem_map_of_mem _ hq)
        rw [lookup_append_none _ _ _ (hdisj q (List.mem_cons_of_mem _ hq))]
        exact lookup_singleton_ne _ _ _ hqk

theorem deepMergeVal_nonobj (a : JValue) (k : String) (v : JValue)
    (h : ∀ vf, v ≠ .obj vf) : deepMergeVal a k v = v := by
  cases v
  case obj vf => exact absurd rfl (h vf)
  all_goals rfl

theorem propGet_obj (fs : List (String × JValue)) (k : String) :
    propGet (.obj fs) k = List.lookup k fs := rfl

theorem mergeBase_of_absent (a : JValue) (k : String) (h : propGet a k = none) :
    mergeBase a k = .obj [] := by
  simp [mergeBase, h]

theorem mergeBase_of_present (a : JValue) (k : String) (v : JValue)
    (h : propGet a k = some v) (hnn : v ≠ .null) : mergeBase a k = v := by
  unfold mergeBase
  rw [h]
  cases v
  case null => exact absurd rfl hnn
  all_goals rfl

theorem jvalue_sizeOf_pos (v : JValue) : 0 < sizeOf v := by
  cases v <;> simp_arith

theorem sizeOf_snd_lt_of_mem {p : String × JValue} {l : List (String × JValue)}
    (h : p ∈ l) : sizeOf p.2 < sizeOf l := by
  have h1 : sizeOf p < sizeOf l := List.sizeOf_lt_of_mem h
  obtain ⟨k, v⟩ := p
  simp only [Prod.mk.sizeOf_spec] at h1
  simp only []
  omega

theorem deepMergeVal_empty_of (n : Nat) :
    ∀ (v : JValue) (k : String), sizeOf v ≤ n → nodupDeep v = true →
      deepMergeVal (JValue.obj []) k v = v := by
  induction n with
  | zero =>
      intro v k h _
      have := jvalue_sizeOf_pos v
      omega
  | succ n ih =>
      intro v k hsz hnd
      cases v
      case obj vf =>
        have hnd1 := (nodupDeep_obj_iff vf).1 hnd
        simp only [deepMergeVal]
        rw [mergeBase_of_absent _ _ (by rw [propGet_obj]; rfl)]
        simp only [spreadFields]
        rw [deepMergeGo_append _ _ _ ((nodupKeys_iff _).1 hnd1.1) (by intro q _; rfl)]
        have hmap : vf.map (fun p => (p.1, deepMergeVal (JValue.obj []) p.1 p.2)) = vf := by
          have hstep : ∀ p ∈ vf,
              (fun p => (p.1, deepMergeVal (JValue.obj []) p.1 p.2)) p = id p := by
            intro p hp
            have hszp : sizeOf p.2 ≤ n := by
              have hlt := sizeOf_snd_lt_of_mem hp
              simp only [JValue.obj.sizeOf_spec] at hsz
              omega
            have hndp : nodupDeep p.2 = true := nodupDeepFields_mem _ _ hnd1.2 hp
            simp [ih p.2 p.1 hszp hndp]
          rw [List.map_congr_left hstep, List.map_id]
        rw [hmap]
        simp
      all_goals rfl

theorem deepMergeVal_empty (v : JValue) (k : String) (hnd : nodupDeep v = true) :
    deepMergeVal (JValue.obj []) k v = v :=
  deepMergeVal_empty_of (sizeOf v) v k le_rfl hnd

theorem deepMergeVal_of_absent (a : JValue) (k : String) (v : JValue)
    (ha : propGet a k = none) (hnd : nodupDeep v = true) :
    deepMergeVal a k v = v := by
  have h1 := deepMergeVal_empty v k hnd
  cases v
  case obj vf =>
    simp only [deepMergeVal] at h1 ⊢
    rw [mergeBase_of_absent _ _ ha]
    rw [mergeBase_of_absent (JValue.obj []) k (by rw [propGet_obj]; rfl)] at h1
    exact h1
  all_goals rfl

theorem deepMergeGo_self_aux (n : Nat) :
    ∀ (vf : List (String × JValue)), sizeOf vf ≤ n →
      (vf.map (fun p => p.1)).Nodup → nodupDeepFields vf = true →
      ∀ es : List (String × JValue), (∀ p ∈ es, p ∈ vf) →
        deepMergeGo (JValue.obj vf) vf es = vf := by
  induction n with
  | zero =>
      intro vf h _ _
      have : 0 < sizeOf vf := by cases vf <;> simp_arith
      omega
  | succ n ih =>
      intro vf hsz hnk hnf es
      induction es with
      | nil => intro _; rw [deepMergeGo_nil]
      | cons p rest ih_es =>
          intro hes
          obtain ⟨k, v⟩ := p
          have hmem : (k, v) ∈ vf := hes (k, v) (List.mem_cons_self _ _)
          have hlk : List.lookup k vf = some v := lookup_of_mem_nodup _ _ _ hmem hnk
          have hval : deepMergeVal (JValue.obj vf) k v = v := by
            cases v
            case obj vf2 =>
              have hnd2 : nodupDeep (JValue.obj vf2) = true :=
                nodupDeepFields_mem _ _ hnf hmem
              have hnd2' := (nodupDeep_obj_iff vf2).1 hnd2
              simp only [deepMergeVal]
              rw [mergeBase_of_present _ _ _ (by rw [propGet_obj]; exact hlk) (by simp)]
              simp only [spreadFields]
              have hsz2 : sizeOf vf2 ≤ n := by
                have hlt := sizeOf_snd_lt_of_mem hmem
                simp only [JValue.obj.sizeOf_spec] at hlt
                omega
              rw [ih vf2 hsz2 ((nodupKeys_iff _).1 hnd2'.1) hnd2'.2 vf2 (fun q hq => hq)]
            all_goals rfl
          rw [deepMergeGo_cons, hval, setKey_self_id _ _ _ hnk hlk]
          exact ih_es (fun q hq => hes q (List.mem_cons_of_mem _ hq))

theorem deepMergeVal_self (a : JValue) (k : String) (v : JValue)
    (ha : propGet a k = some v) (hnd : nodupDeep v = true) :
    deepMergeVal a k v = v := by
  cases v
  case obj vf =>
    have hnd' := (nodupDeep_obj_iff vf).1 hnd
    simp only [deepMergeVal]
    rw [mergeBase_of_present _ _ _ ha (by simp)]
    simp only [spreadFields]
    rw [deepMergeGo_self_aux (sizeOf vf) vf le_rfl ((nodupKeys_iff _).1 hnd'.1) hnd'.2 vf
      (fun q hq => hq)]
  all_goals rfl

/- ------------------------------------------------------------------ -/
/- Claim theorems                                                      -/
/- ------------------------------------------------------------------ -/

/-- C9: when both the resume text and the background input are empty,
`normalizeResume` returns the all-empty NormalizedData — null name, empty
contact fields, and empty education, skills, experience and certification
lists — and performs zero model calls, whatever the model channel would
have produced. -/
theorem normalizeResume_empty_input (modelResp : Option JValue) :
    normalizeResume "" "" modelResp = (emptyNormalized, 0) ∧
    emptyNormalized.name = none ∧
    emptyNormalized.contact.email = none ∧
    emptyNormalized.contact.phone = none ∧
    emptyNormalized.contact.location = none ∧
    emptyNormalized.contact.links = [] ∧
    emptyNormalized.education = [] ∧
    emptyNormalized.skills = [] ∧
    emptyNormalized.experience = [] ∧
    emptyNormalized.certifications = [] := by
  exact ⟨rfl, rfl, rfl, rfl, rfl, rfl, rfl, rfl, rfl, rfl⟩

/-- C7 counterexample: with a 12-turn prior chat history, the chat handlers
persist a 14-entry chat array — more than the 12 entries the claim allows
for the written array. -/
theorem persistedChat_counterexample :
    (persistedChat (List.replicate 12 { role := "user", content := "m" }) "hi" "ok").length = 14 ∧
    ¬ ((persistedChat (List.replicate 12 { role := "user", content := "m" }) "hi" "ok").length ≤ 12) := by
  have h : (persistedChat (List.replicate 12 { role := "user", content := "m" }) "hi" "ok").length = 14 := by
    rfl
  exact ⟨h, by omega⟩

/-- C7 amended: the chat handlers truncate the PRIOR history to its last 12
turns and then append the new user and assistant turns, so the chat array
written before persistence has min(|prior|, 12) + 2 entries — at most 14,
not at most 12. -/
theorem persistedChat_bound (rawHistory : List ChatTurn) (userMsg replyText : String) :
    (persistedChat rawHistory userMsg replyText).length = min rawHistory.length 12 + 2 ∧
    (persistedChat rawHistory userMsg replyText).length ≤ 14 := by
  unfold persistedChat jsSliceLast toChatTurns
  simp only [List.length_append, List.length_drop, List.length_cons, List.length_nil]
  omega

/-- C4: `proposeRoles` always returns a non-empty list of at most 10
candidates, for every parsed model outcome including total call failure
(`none`); when the shaping yields zero candidates the result is exactly the
fixed three-role fallback set, each with a non-empty title; every numeric
score a candidate carries is clamped to [0, 100]. -/
theorem proposeRoles_spec (parsed : Option JValue) :
    proposeRoles parsed ≠ [] ∧
    (proposeRoles parsed).length ≤ 10 ∧
    (candidatesOf parsed = [] → proposeRoles parsed = fallbackRoles) ∧
    (∀ r ∈ fallbackRoles, r.title ≠ "") ∧
    (∀ r ∈ proposeRoles parsed, ∀ n, r.score = some n → 0 ≤ n ∧ n ≤ 100) := by
  refine ⟨?_, ?_, ?_, ?_, ?_⟩
  · unfold proposeRoles
    by_cases h : (((candidatesOf parsed).take 10).enum.map (fun p => shapeRole p.1 p.2)).length = 0
    · rw [if_pos h]
      simp [fallbackRoles]
    · rw [if_neg h]
      intro hc
      rw [hc] at h
      simp at h
  · unfold proposeRoles
    by_cases h : (((candidatesOf parsed).take 10).enum.map (fun p => shapeRole p.1 p.2)).length = 0
    · rw [if_pos h]
      simp [fallbackRoles]
    · rw [if_neg h]
      rw [List.length_map, List.enum_length, List.length_take]
      omega
  · intro hc
    unfold proposeRoles
    simp [hc]
  · intro r hr
    simp only [fallbackRoles, List.mem_cons, List.not_mem_nil, or_false] at hr
    rcases hr with rfl | rfl | rfl <;> simp
  · intro r hr n hscore
    unfold proposeRoles at hr
    by_cases h : (((candidatesOf parsed).take 10).enum.map (fun p => shapeRole p.1 p.2)).length = 0
    · rw [if_pos h] at hr
      simp only [fallbackRoles, List.mem_cons, List.not_mem_nil, or_false] at hr
      rcases hr with rfl | rfl | rfl <;> simp at hscore
    · rw [if_neg h] at hr
      rcases List.mem_map.1 hr with ⟨p, _, hp⟩
      subst hp
      simp only [shapeRole] at hscore
      cases ht : jsTruthyOpt (getProp p.2 "score") with
      | none => rw [ht] at hscore; cases hscore
      | some v =>
          rw [ht] at hscore
          rcases Option.map_eq_some'.1 hscore with ⟨m, _, hm⟩
          subst hm
          constructor
          · exact le_max_left _ _
          · exact max_le (by norm_num) (min_le_left _ _)

/-- C4 witness: on total model failure the result is the fixed fallback set
and is non-empty. -/
theorem proposeRoles_spec_witness :
    proposeRoles none = fallbackRoles ∧ proposeRoles none ≠ [] :=
  ⟨(proposeRoles_spec none).2.2.1 rfl, (proposeRoles_spec none).1⟩

/-- C6 counterexample: calling `saveRunPart` with an id for which no Run
exists does not fail with NotFound — it synthesizes and stores a fresh Run
with status "running" under that id. -/
theorem saveRunPart_missing_counterexample :
    (saveRunPart [] "run-1" "2024-01-01" {}).1.status = "running" ∧
    List.lookup "run-1" (saveRunPart [] "run-1" "2024-01-01" {}).2 =
      some (saveRunPart [] "run-1" "2024-01-01" {}).1 := by
  exact ⟨rfl, rfl⟩

/-- C6 amended: `saveRunPart` never fails: with an absent id it synthesizes
a new Run (createdAt = now, status = patch status defaulting to "running",
scalar fields and phases taken from the patch alone); for an existing Run,
every top-level scalar field (status, background, targetRole,
selectedRoleId, jobDescription, jobDescriptionSource) takes the patch's
value when the patch provides one and otherwise keeps the existing value,
and createdAt is kept. -/
theorem saveRunPart_patch_wins (s : Store) (id now : String) (patch : RunInit) :
    ((saveRunPart s id now patch).2 = upsertRow s (saveRunPart s id now patch).1) ∧
    (List.lookup id s = none →
      (saveRunPart s id now patch).1.createdAt = now ∧
      (saveRunPart s id now patch).1.status = patch.status.getD "running" ∧
      (saveRunPart s id now patch).1.background = patch.background ∧
      (saveRunPart s id now patch).1.targetRole = patch.targetRole ∧
      (saveRunPart s id now patch).1.selectedRoleId = patch.selectedRoleId ∧
      (saveRunPart s id now patch).1.jobDescription = patch.jobDescription ∧
      (saveRunPart s id now patch).1.jobDescriptionSource = patch.jobDescriptionSource ∧
      (saveRunPart s id now patch).1.phases =
        .obj (deepMerge (.obj []) (patch.phases.getD (.obj [])))) ∧
    (∀ r, List.lookup id s = some r →
      (saveRunPart s id now patch).1.createdAt = r.createdAt ∧
      (saveRunPart s id now patch).1.status = patch.status.getD r.status ∧
      (saveRunPart s id now patch).1.background = (patch.background <|> r.background) ∧
      (saveRunPart s id now patch).1.targetRole = (patch.targetRole <|> r.targetRole) ∧
      (saveRunPart s id now patch).1.selectedRoleId = (patch.selectedRoleId <|> r.selectedRoleId) ∧
      (saveRunPart s id now patch).1.jobDescription = (patch.jobDescription <|> r.jobDescription) ∧
      (saveRunPart s id now patch).1.jobDescriptionSource =
        (patch.jobDescriptionSource <|> r.jobDescriptionSource)) := by
  refine ⟨rfl, ?_, ?_⟩
  · intro h
    simp [saveRunPart, h]
  · intro r h
    simp [saveRunPart, h]

/-- C6 witness: on a store holding run "r1", a patch providing only a
background wins for that field and keeps the existing status. -/
theorem saveRunPart_patch_wins_witness :
    (saveRunPart [("r1", { id := "r1", createdAt := "t0", updatedAt := "t0", status := "done" })]
      "r1" "t1" { background := some "bg" }).1.background = some "bg" ∧
    (saveRunPart [("r1", { id := "r1", createdAt := "t0", updatedAt := "t0", status := "done" })]
      "r1" "t1" { background := some "bg" }).1.status = "done" := by
  have h := (saveRunPart_patch_wins
    [("r1", { id := "r1", createdAt := "t0", updatedAt := "t0", status := "done" })]
    "r1" "t1" { background := some "bg" }).2.2
    { id := "r1", createdAt := "t0", updatedAt := "t0", status := "done" } rfl
  exact ⟨h.2.2.1, h.2.1⟩

/-- On a store whose rows are keyed by their own run id and whose keys are
duplicate-free, the recency listing mentions any id at most once. -/
theorem getHistory_count_le_one (s : Store) (id : String) (limit : Nat)
    (hn : (s.map (fun p => p.1)).Nodup) (hwf : ∀ p ∈ s, p.2.id = p.1) :
    (((getHistory s limit).map (fun it => it.id)).count id) ≤ 1 := by
  unfold getHistory
  rw [List.map_map]
  have hcomp : ((fun it => it.id) ∘ fun r =>
      ({ id := r.id, createdAt := r.createdAt, status := r.status,
         targetRole := r.targetRole } : RunIndexItem)) = fun r : RunData => r.id := rfl
  rw [hcomp]
  have hsub := List.Sublist.count_le
    ((List.take_sublist limit ((s.map (fun p => p.2)).mergeSort
      (fun a b => decide (b.updatedAt ≤ a.updatedAt)))).map (fun r : RunData => r.id)) id
  refine le_trans hsub ?_
  have hperm : (((s.map (fun p => p.2)).mergeSort
      (fun a b => decide (b.updatedAt ≤ a.updatedAt))).map (fun r => r.id)).Perm
      ((s.map (fun p => p.2)).map (fun r => r.id)) :=
    (List.mergeSort_perm _ _).map _
  rw [hperm.count_eq, List.map_map]
  have hmap : s.map ((fun r : RunData => r.id) ∘ fun p => p.2) = s.map (fun p => p.1) :=
    List.map_congr_left (fun p hp => hwf p hp)
  rw [hmap]
  exact List.nodup_iff_count_le_one.1 hn id

/-- C5: `createRun` is idempotent.  When a run with the given id exists,
the result merges `init` into it — createdAt preserved, patch-wins on
scalar fields, `phases` deep-merged — and the upsert leaves the store's key
set unchanged, producing no second entry for that id in the store or in the
recency listing.  When the id is absent (and `init` sets neither status nor
phases) a run with status "queued" and empty phases is appended. -/
theorem createRun_idempotent (s : Store) (id now : String) (init : RunInit)
    (hnodup : (s.map (fun p => p.1)).Nodup)
    (hwf : ∀ p ∈ s, p.2.id = p.1)
    (hid : init.id = none) :
    (∀ r, List.lookup id s = some r →
      (createRun s id now init).1.createdAt = r.createdAt ∧
      (createRun s id now init).1.phases =
        .obj (deepMerge r.phases (init.phases.getD (.obj []))) ∧
      (createRun s id now init).1.status = init.status.getD r.status ∧
      ((createRun s id now init).2).map (fun p => p.1) = s.map (fun p => p.1) ∧
      List.lookup id (createRun s id now init).2 = some (createRun s id now init).1) ∧
    (List.lookup id s = none → init.status = none → init.phases = none →
      (createRun s id now init).1.status = "queued" ∧
      (createRun s id now init).1.phases = .obj [] ∧
      (createRun s id now init).2 = s ++ [(id, (createRun s id now init).1)]) ∧
    (((createRun s id now init).2.map (fun p => p.1)).Nodup) ∧
    (∀ limit,
      (((getHistory (createRun s id now init).2 limit).map (fun it => it.id)).count id) ≤ 1) := by
  have hmid : (createRun s id now init).1.id = id := by
    unfold createRun
    cases h : List.lookup id s with
    | none =>
        simp [hid]
    | some r =>
        have h2 : r.id = id := hwf _ (lookup_mem _ _ _ h)
        simp [hid, h2]
  have hstore : (createRun s id now init).2 = setKey s id (createRun s id now init).1 := by
    have h1 : (createRun s id now init).2 = upsertRow s (createRun s id now init).1 := rfl
    rw [h1]
    unfold upsertRow
    rw [hmid]
  have hwf' : ∀ p ∈ (createRun s id now init).2, p.2.id = p.1 := by
    rw [hstore]
    unfold setKey
    intro p hp
    by_cases hany : s.any (fun p => p.1 = id)
    · rw [if_pos hany] at hp
      rcases List.mem_map.1 hp with ⟨q, hq, hpq⟩
      by_cases hqk : q.1 = id
      · rw [if_pos hqk] at hpq
        subst hpq
        exact hmid
      · rw [if_neg hqk] at hpq
        subst hpq
        exact hwf q hq
    · rw [if_neg hany] at hp
      rcases List.mem_append.1 hp with hq | hq
      · exact hwf p hq
      · rcases List.mem_singleton.1 hq with rfl
        exact hmid
  have hnodup' : ((createRun s id now init).2.map (fun p => p.1)).Nodup := by
    rw [hstore]
    exact nodup_keys_setKey _ _ _ hnodup
  refine ⟨?_, ?_, hnodup', ?_⟩
  · intro r h
    have hbase : (List.lookup id s).getD
        { id := id, createdAt := now, updatedAt := now, status := "queued", phases := .obj [] } = r := by
      rw [h]; rfl
    refine ⟨?_, ?_, ?_, ?_, ?_⟩
    · unfold createRun
      rw [hbase]
    · unfold createRun
      rw [hbase]
    · unfold createRun
      rw [hbase]
    · rw [hstore]
      exact keys_setKey_of_present _ _ _ (by simp [h])
    · rw [hstore]
      exact lookup_setKey_self _ _ _
  · intro h hst hph
    have hbase : (List.lookup id s).getD
        { id := id, createdAt := now, updatedAt := now, status := "queued", phases := .obj [] } =
        { id := id, createdAt := now, updatedAt := now, status := "queued", phases := .obj [] } := by
      rw [h]; rfl
    refine ⟨?_, ?_, ?_⟩
    · unfold createRun
      rw [hbase, hst]
      rfl
    · unfold createRun
      rw [hbase, hph]
      rfl
    · rw [hstore]
      exact setKey_of_absent _ _ _ h
  · intro limit
    exact getHistory_count_le_one _ _ _ hnodup' hwf'

/-- C5 witness: creating the same id twice keeps a single entry (second
call merges, preserving createdAt). -/
theorem createRun_idempotent_witness :
    (createRun [("r1", { id := "r1", createdAt := "t0", updatedAt := "t0", status := "done" })]
      "r1" "t1" { background := some "bg" }).1.createdAt = "t0" ∧
    ((createRun [("r1", { id := "r1", createdAt := "t0", updatedAt := "t0", status := "done" })]
      "r1" "t1" { background := some "bg" }).2.map (fun p => p.1)) = ["r1"] := by
  have h := (createRun_idempotent
    [("r1", { id := "r1", createdAt := "t0", updatedAt := "t0", status := "done" })]
    "r1" "t1" { background := some "bg" }
    (by decide) (by intro p hp; rcases List.mem_singleton.1 hp with rfl; rfl) rfl).1
    { id := "r1", createdAt := "t0", updatedAt := "t0", status := "done" } rfl
  exact ⟨h.1, h.2.2.2.1⟩

/-- C2: deep-merge semantics of `saveRunPart`.  For an existing run with
phases `A` patched with phases `B` (object keys duplicate-free, as real JS
objects are): the stored phases become `deepMerge A B`; with disjoint
top-level keys this is exactly the union `A ++ B`; a key held by both with
object values on both sides carries the recursive merge of the two values;
a key whose patch value is an array or any non-object takes the patch value
wholesale. -/
theorem saveRunPart_deepMerge_spec (s : Store) (id now : String) (patch : RunInit)
    (r : RunData) (A B : List (String × JValue))
    (hr : List.lookup id s = some r) (hA : r.phases = .obj A)
    (hB : patch.phases = some (.obj B))
    (hAnd : (A.map (fun p => p.1)).Nodup)
    (hBnd : (B.map (fun p => p.1)).Nodup)
    (hBdeep : nodupDeepFields B = true) :
    ((saveRunPart s id now patch).1.phases = .obj (deepMerge (.obj A) (.obj B))) ∧
    (List.lookup id (saveRunPart s id now patch).2 = some (saveRunPart s id now patch).1) ∧
    ((∀ k ∈ A.map (fun p => p.1), k ∉ B.map (fun p => p.1)) →
      deepMerge (.obj A) (.obj B) = A ++ B) ∧
    (∀ k af bf, List.lookup k A = some (.obj af) → List.lookup k B = some (.obj bf) →
      List.lookup k (deepMerge (.obj A) (.obj B)) = some (deepMergeV (.obj af) (.obj bf))) ∧
    (∀ k bv, List.lookup k B = some bv → (∀ vf, bv ≠ .obj vf) →
      List.lookup k (deepMerge (.obj A) (.obj B)) = some bv) := by
  refine ⟨?_, ?_, ?_, ?_, ?_⟩
  · simp [saveRunPart, hr, hA, hB]
  · have hst : (saveRunPart s id now patch).2 = setKey s id (saveRunPart s id now patch).1 := rfl
    rw [hst]
    exact lookup_setKey_self _ _ _
  · intro hdisj
    unfold deepMerge
    simp only [spreadFields]
    have hd : ∀ p ∈ B, List.lookup p.1 A = none := by
      intro p hp
      rw [lookup_eq_none_iff]
      intro q hq hqk
      exact hdisj q.1 (List.mem_map_of_mem _ hq) (hqk ▸ List.mem_map_of_mem _ hp)
    rw [deepMergeGo_append _ _ _ hBnd hd]
    have hmap : B.map (fun p => (p.1, deepMergeVal (.obj A) p.1 p.2)) = B := by
      have hstep : ∀ p ∈ B,
          (fun p => (p.1, deepMergeVal (.obj A) p.1 p.2)) p = (fun p => p) p := by
        intro p hp
        have hnd : nodupDeep p.2 = true := nodupDeepFields_mem _ _ hBdeep hp
        have hpa : propGet (.obj A) p.1 = none := by
          rw [propGet_obj]
          exact hd p hp
        simp [deepMergeVal_of_absent _ _ _ hpa hnd]
      rw [List.map_congr_left hstep]
      simp
    rw [hmap]
  · intro k af bf hA' hB'
    unfold deepMerge
    simp only [spreadFields]
    rw [deepMergeGo_lookup_mem _ _ _ _ _ hBnd hB']
    congr 1
    simp only [deepMergeVal]
    rw [mergeBase_of_present _ _ _ (by rw [propGet_obj]; exact hA') (by simp)]
    rfl
  · intro k bv hB' hno
    unfold deepMerge
    simp only [spreadFields]
    rw [deepMergeGo_lookup_mem _ _ _ _ _ hBnd hB']
    rw [deepMergeVal_nonobj _ _ _ hno]

/-- C2 witness: a disjoint patch unions into the stored phases. -/
theorem saveRunPart_deepMerge_witness :
    deepMerge (.obj [("a", .num 1)]) (.obj [("b", .arr [.num 2])]) =
      [("a", .num 1), ("b", .arr [.num 2])] := by
  have h := saveRunPart_deepMerge_spec
    [("r1", { id := "r1", createdAt := "t0", updatedAt := "t0", status := "done",
              phases := .obj [("a", .num 1)] })]
    "r1" "t1" { phases := some (.obj [("b", .arr [.num 2])]) }
    { id := "r1", createdAt := "t0", updatedAt := "t0", status := "done",
      phases := .obj [("a", .num 1)] }
    [("a", .num 1)] [("b", .arr [.num 2])]
    rfl rfl rfl (by decide) (by decide) rfl
  exact h.2.2.1 (by decide)

/-- A successful schema path carries exactly the requested count. -/
theorem schemaBulletsOut_length (resp : Option JValue) (n : Nat) (l : List JValue)
    (h : schemaBulletsOut resp n = some l) : l.length = n := by
  cases resp with
  | none => simp [schemaBulletsOut] at h
  | some p =>
      cases hb : getProp p "bullets" with
      | none => simp [schemaBulletsOut, hb] at h
      | some v =>
          cases v with
          | arr l2 =>
              simp only [schemaBulletsOut, hb] at h
              by_cases hl : l2.length = n
              · rw [if_pos hl] at h
                injection h with h
                subst h
                exact hl
              · rw [if_neg hl] at h
                cases h
          | null => simp [schemaBulletsOut, hb] at h
          | bool b => simp [schemaBulletsOut, hb] at h
          | num m => simp [schemaBulletsOut, hb] at h
          | str s2 => simp [schemaBulletsOut, hb] at h
          | obj fs => simp [schemaBulletsOut, hb] at h

/-- C1: for every bullet list, every style instruction (which only shapes
the prompt), every valid target index list and every model outcome,
`transformBulletsBatch` returns exactly `|indexes|` strings.  On the
line-split fallback path, every slot for which the model produced no
non-empty line is filled from the original bullet at that slot's index —
subjected to the same output normalization as every returned bullet, hence
verbatim whenever that bullet is already in normalized form. -/
theorem transformBulletsBatch_spec (bullets : List String) (indexes : List Nat)
    (schemaResp : Option JValue) (fallbackText : String)
    (hvalid : ∀ i ∈ indexes, i < bullets.length) :
    (transformBulletsBatch bullets indexes schemaResp fallbackText).length = indexes.length ∧
    (schemaBulletsOut schemaResp indexes.length = none →
      ∀ k, k < indexes.length → (fallbackLines fallbackText).length ≤ k →
        (transformBulletsBatch bullets indexes schemaResp fallbackText).get? k =
          some (cleanBulletOut (bullets.getD (indexes.getD k 0) "")) ∧
        (cleanBulletOut (bullets.getD (indexes.getD k 0) "") = bullets.getD (indexes.getD k 0) "" →
          (transformBulletsBatch bullets indexes schemaResp fallbackText).get? k =
            some (bullets.getD (indexes.getD k 0) ""))) := by
  constructor
  · unfold transformBulletsBatch
    cases h : schemaBulletsOut schemaResp indexes.length with
    | some l =>
        rw [List.length_map]
        exact schemaBulletsOut_length _ _ _ h
    | none =>
        rw [List.length_map, List.length_map, List.enum_length]
  · intro hs k hk hlines
    cases hg : indexes.get? k with
    | none =>
        rw [List.get?_eq_none] at hg
        omega
    | some i =>
        have hgd : indexes.getD k 0 = i := by
          rw [List.getD_eq_getElem?_getD, ← List.get?_eq_getElem?, hg]
          rfl
        have hline : (fallbackLines fallbackText).get? k = none :=
          List.get?_eq_none.2 hlines
        have hres : (transformBulletsBatch bullets indexes schemaResp fallbackText).get? k =
            some (cleanBulletOut (bullets.getD i "")) := by
          unfold transformBulletsBatch
          rw [hs]
          rw [List.get?_map, List.get?_map, List.get?_enum, hg]
          simp only [Option.map_some']
          rw [hline]
        have hbd : bullets.getD i "" = bullets.getD (indexes.getD k 0) "" := by rw [hgd]
        rw [hbd] at hres
        refine ⟨hres, ?_⟩
        intro hclean
        rw [hres, hclean]

/-- C1 witness: two target slots, fallback response with a single line —
the second slot keeps the original bullet. -/
theorem transformBulletsBatch_witness :
    (transformBulletsBatch ["alpha", "beta"] [0, 1] none "line one").length = 2 ∧
    (transformBulletsBatch ["alpha", "beta"] [0, 1] none "line one").get? 1 = some "beta" := by
  refine ⟨(transformBulletsBatch_spec ["alpha", "beta"] [0, 1] none "line one"
    (by decide)).1, ?_⟩
  have h := (transformBulletsBatch_spec ["alpha", "beta"] [0, 1] none "line one"
    (by decide)).2 rfl 1 (by decide) (by decide)
  exact h.2 rfl

theorem mem_insertSorted (x y : Int) (l : List Int) :
    y ∈ insertSorted x l ↔ y = x ∨ y ∈ l := by
  induction l with
  | nil => simp [insertSorted]
  | cons z rest ih =>
      simp only [insertSorted]
      by_cases h : x ≤ z
      · rw [if_pos h]
        simp [List.mem_cons]
      · rw [if_neg h]
        simp [List.mem_cons, ih]
        tauto

theorem mem_sortInts (y : Int) (l : List Int) : y ∈ sortInts l ↔ y ∈ l := by
  induction l with
  | nil => simp [sortInts]
  | cons x rest ih =>
      simp [sortInts, mem_insertSorted, ih, List.mem_cons]

/-- Soundness of the clamp-and-filter pass: every produced target addresses
an existing job and only existing bullets of that job. -/
theorem clampTargets_sound (experience : List ExpJob) :
    ∀ (raw : List JValue) (ts : List BulletTarget),
      clampTargets experience raw = some ts →
      ∀ t ∈ ts, 0 ≤ t.jobIdx ∧ t.jobIdx < (experience.length : Int) ∧
        ∀ i ∈ t.bulletIndices, 0 ≤ i ∧
          i < (((experience.getD t.jobIdx.toNat {}).bullets).length : Int) := by
  intro raw
  induction raw with
  | nil =>
      intro ts h
      simp only [clampTargets, Option.some.injEq] at h
      subst h
      intro t ht
      cases ht
  | cons x rest ih =>
      intro ts h
      cases x with
      | null => simp [clampTargets] at h
      | bool b =>
          simp only [clampTargets] at h
          exact ih ts h
      | num m =>
          simp only [clampTargets] at h
          exact ih ts h
      | str s =>
          simp only [clampTargets] at h
          exact ih ts h
      | arr l =>
          simp only [clampTargets] at h
          exact ih ts h
      | obj fs =>
          simp only [clampTargets] at h
          split at h
          · rename_i j idxs hj hb
            split at h
            · cases h
            · rename_i job hget
              rcases Option.map_eq_some'.1 h with ⟨ts', hrec, hts⟩
              subst hts
              intro t ht
              rcases List.mem_cons.1 ht with rfl | ht'
              · dsimp only
                have hnn : (0 : Int) ≤ max 0 (min j ((experience.length : Int) - 1)) :=
                  le_max_left _ _
                have hlt : (max 0 (min j ((experience.length : Int) - 1))).toNat <
                    experience.length := by
                  rcases List.get?_eq_some.1 hget with ⟨hh, _⟩
                  exact hh
                refine ⟨hnn, by omega, ?_⟩
                intro i hi
                have hjob : experience.getD
                    (max 0 (min j ((experience.length : Int) - 1))).toNat {} = job := by
                  rw [List.getD_eq_getElem?_getD, ← List.get?_eq_getElem?, hget]
                  rfl
                rw [mem_sortInts] at hi
                rcases List.mem_filterMap.1 hi with ⟨v, _, hv⟩
                split at hv
                · split at hv
                  · injection hv with hv
                    subst hv
                    rw [hjob]
                    omega
                  · cases hv
                · cases hv
              · exact ih ts' hrec t ht'
          · exact ih ts h

/-- C3: the model-parse layer of the Edit Intent Resolver returns only
targets whose `jobIdx` lies in `[0, number of jobs)` and whose
`bulletIndices` all lie in `[0, number of bullets of that job)`; a target
whose `bulletIndices` comes out empty after clamping is discarded, and an
intent left with no surviving target is rejected (`none`). -/
theorem extractBulletTransformIntent_index_safety (experience : List ExpJob)
    (parsed : Option JValue) (intent : TransformIntent)
    (h : extractBulletTransformIntent experience parsed = some intent) :
    intent.targets ≠ [] ∧
    ∀ t ∈ intent.targets,
      0 ≤ t.jobIdx ∧ t.jobIdx < (experience.length : Int) ∧
      t.bulletIndices ≠ [] ∧
      ∀ i ∈ t.bulletIndices, 0 ≤ i ∧
        i < (((experience.getD t.jobIdx.toNat {}).bullets).length : Int) := by
  cases parsed with
  | none => cases h
  | some p =>
      simp only [extractBulletTransformIntent] at h
      split at h
      · split at h
        · rename_i conf targets hc ht
          split at h
          · rename_i hcf
            split at h
            · rename_i ts hct
              split at h
              · cases h
              · rename_i hf
                injection h with h
                subst h
                constructor
                · exact hf
                · intro t htt
                  simp only at htt
                  have htf : t ∈ ts.filter (fun t => t.bulletIndices.length > 0) := htt
                  have hts : t ∈ ts := List.mem_of_mem_filter htf
                  have hlen : t.bulletIndices.length > 0 := by
                    have := List.of_mem_filter htf
                    simpa using this
                  have hs := clampTargets_sound experience targets ts hct t hts
                  exact ⟨hs.1, hs.2.1,
                    List.ne_nil_of_length_pos hlen, hs.2.2⟩
            · cases h
          · cases h
        · cases h
      · cases h

/-- C3 witness: an out-of-range jobIdx is clamped into range and invalid
bullet indices are dropped; the surviving target stays within bounds. -/
theorem extractBulletTransformIntent_witness :
    ({ style := some (JValue.str "short"),
       targets := [{ jobIdx := 0, bulletIndices := [0, 2] }],
       confidence := 1 } : TransformIntent).targets ≠ [] := by
  have h := extractBulletTransformIntent_index_safety
    [{ title := "T", org := "O", bullets := ["b1", "b2", "b3"] }]
    (some (.obj [("style", .str "short"), ("confidence", .num 1),
      ("targets", .arr [.obj [("jobIdx", .num 5),
        ("bulletIndices", .arr [.num 2, .num 0, .num 9])]])]))
    { style := some (JValue.str "short"),
      targets := [{ jobIdx := 0, bulletIndices := [0, 2] }],
      confidence := 1 }
    rfl
  exact h.1

/-- Number of `ai.run` calls made by `aiJsonWithRetry`: two exactly when the
first parse is falsy and a parse hint is provided, otherwise one. -/
theorem aiJsonWithRetry_calls (resp1 resp2 : String) (hint : Option String) :
    (aiJsonWithRetry resp1 resp2 hint).calls =
      if !jsonTruthy (tryParseJson resp1) && jsStrTruthy hint then 2 else 1 := by
  cases h1 : jsonTruthy (tryParseJson resp1) with
  | true => simp [aiJsonWithRetry, h1]
  | false =>
      cases hh : jsStrTruthy hint with
      | false =>
          simp only [aiJsonWithRetry, h1, hh, Bool.not_false, Bool.and_false,
            Bool.false_eq_true, if_false]
          split <;> first | rfl | (split <;> rfl)
      | true =>
          simp only [aiJsonWithRetry, h1, hh, Bool.not_false, Bool.and_self, if_true]
          split <;> first | rfl | (split <;> rfl)

/-- C8: `aiJsonWithRetry` makes at most one corrective retry (≤ 2 model
calls), and a second call happens only when the first parse came out falsy
and a parse hint was supplied; a truthy first parse is returned directly;
when both parses fail the result is the salvage of the retry text, which
scans candidate close braces backward and parses
`text.slice(firstBrace, e + 1)`, and when no candidate parses the json
result is the (null) parse outcome rather than an exception. -/
theorem aiJsonWithRetry_spec (resp1 resp2 : String) (hint : Option String) :
    (aiJsonWithRetry resp1 resp2 hint).calls ≤ 2 ∧
    ((aiJsonWithRetry resp1 resp2 hint).calls = 2 →
      jsonTruthy (tryParseJson resp1) = false ∧ jsStrTruthy hint = true) ∧
    (jsonTruthy (tryParseJson resp1) = true →
      aiJsonWithRetry resp1 resp2 hint = ⟨resp1, tryParseJson resp1, 1⟩) ∧
    (jsonTruthy (tryParseJson resp1) = false → jsStrTruthy hint = true →
      jsonTruthy (tryParseJson resp2) = false →
      ∀ sub p, salvage resp2 = some (sub, p) →
        aiJsonWithRetry resp1 resp2 hint = ⟨sub, some p, 2⟩) ∧
    (jsonTruthy (tryParseJson resp1) = false → jsStrTruthy hint = true →
      jsonTruthy (tryParseJson resp2) = false → salvage resp2 = none →
      aiJsonWithRetry resp1 resp2 hint = ⟨resp2, tryParseJson resp2, 2⟩) ∧
    (jsonTruthy (tryParseJson resp1) = false → jsStrTruthy hint = false →
      ∀ sub p, salvage resp1 = some (sub, p) →
        aiJsonWithRetry resp1 resp2 hint = ⟨sub, some p, 1⟩) ∧
    (jsonTruthy (tryParseJson resp1) = false → jsStrTruthy hint = false →
      salvage resp1 = none →
      aiJsonWithRetry resp1 resp2 hint = ⟨resp1, tryParseJson resp1, 1⟩) ∧
    (∀ text sub p, salvage text = some (sub, p) →
      tryParseJson sub = some p ∧
      ∃ e ∈ salvageCandidates text,
        sub = jsSliceII text (firstBraceIdx text) ((e : Int) + 1)) := by
  refine ⟨?_, ?_, ?_, ?_, ?_, ?_, ?_, ?_⟩
  · rw [aiJsonWithRetry_calls]
    split <;> omega
  · intro hc
    rw [aiJsonWithRetry_calls] at hc
    split at hc
    · rename_i hcond
      rw [Bool.and_eq_true, Bool.not_eq_true'] at hcond
      exact hcond
    · cases hc
  · intro h1
    simp [aiJsonWithRetry, h1]
  · intro h1 hh h2 sub p hs
    simp [aiJsonWithRetry, h1, hh, h2, hs]
  · intro h1 hh h2 hs
    simp [aiJsonWithRetry, h1, hh, h2, hs]
  · intro h1 hh sub p hs
    simp [aiJsonWithRetry, h1, hh, hs]
  · intro h1 hh hs
    simp [aiJsonWithRetry, h1, hh, hs]
  · intro text sub p hs
    simp only [salvage] at hs
    rcases List.exists_of_findSome?_eq_some hs with ⟨e, he, hfe⟩
    cases htp : tryParseJson (jsSliceII text (firstBraceIdx text) ((e : Int) + 1)) with
    | none =>
        simp only [salvageTry, htp] at hfe
        cases hfe
    | some q =>
        cases hq : jsTruthy q with
        | false =>
            simp only [salvageTry, htp, hq, Bool.false_eq_true, if_false] at hfe
            cases hfe
        | true =>
            simp only [salvageTry, htp, hq, if_true, Option.some.injEq,
              Prod.mk.injEq] at hfe
            obtain ⟨hsub, hp⟩ := hfe
            subst hsub
            subst hp
            exact ⟨htp, e, List.mem_reverse.1 he, rfl⟩

/-- C8 witness: a concrete double-failure in which the salvage pass recovers
the embedded object from the retry text and the executor stops at two calls. -/
theorem aiJsonWithRetry_spec_witness :
    aiJsonWithRetry "nope" "x \x7b\"a\":1\x7d y" (some "JSON only") =
      ⟨"\x7b\"a\":1\x7d", some (JValue.obj [("a", JValue.num 1)]), 2⟩ :=
  (aiJsonWithRetry_spec "nope" "x \x7b\"a\":1\x7d y" (some "JSON only")).2.2.2.1
    rfl rfl rfl "\x7b\"a\":1\x7d" (JValue.obj [("a", JValue.num 1)]) rfl

theorem foldl_set_length (g : Nat × Nat → String) (l : List (Nat × Nat)) :
    ∀ acc : List String,
      (l.foldl (fun acc p => acc.set p.2 (g p)) acc).length = acc.length := by
  induction l with
  | nil => intro acc; rfl
  | cons p rest ih =>
      intro acc
      rw [List.foldl_cons, ih]
      exact List.length_set _ _ _

theorem foldl_set_get_ne (g : Nat × Nat → String) (l : List (Nat × Nat)) (i : Nat)
    (hni : ∀ p ∈ l, p.2 ≠ i) :
    ∀ acc : List String,
      (l.foldl (fun acc p => acc.set p.2 (g p)) acc).get? i = acc.get? i := by
  induction l with
  | nil => intro acc; rfl
  | cons p rest ih =>
      intro acc
      rw [List.foldl_cons, ih (fun q hq => hni q (List.mem_cons_of_mem _ hq))]
      rw [List.get?_eq_getElem?, List.get?_eq_getElem?,
        List.getElem?_set_ne (hni p (List.mem_cons_self _ _))]

/-- The rewrite loop keeps the bullet count. -/
theorem applyRewrites_length (bullets : List String) (ti : List Nat)
    (rewritten : List String) :
    (applyRewrites bullets ti rewritten).length = bullets.length := by
  simp only [applyRewrites]
  exact foldl_set_length _ _ _

/-- The rewrite loop leaves every non-targeted slot untouched. -/
theorem applyRewrites_get_not_mem (bullets : List String) (ti : List Nat)
    (rewritten : List String) (i : Nat) (h : i ∉ ti) :
    (applyRewrites bullets ti rewritten).get? i = bullets.get? i := by
  simp only [applyRewrites]
  refine foldl_set_get_ne _ _ _ ?_ _
  intro p hp hpi
  apply h
  have hmem : p.2 ∈ ti := by
    have hm := List.mem_map_of_mem Prod.snd hp
    rwa [List.enum_map_snd] at hm
  rwa [hpi] at hmem

/-- Shape of the successful path of the bullets/transform endpoint: the new
store is a `saveRunPart` with the patched normalize phase, and the response
reports the validated target indices and the rewritten bullet list. -/
theorem bulletsTransform_success (s : Store) (runId now st : String) (j : Int)
    (bidx : Option (List Int)) (schemaResp : Option JValue) (fallbackText : String)
    (run : RunData) (P N : List (String × JValue)) (experience : List JValue)
    (JF : List (String × JValue)) (bulletsJ : List JValue) (bullets : List String)
    (hst : bulletStyles.contains st = true)
    (hrun : s.lookup runId = some run)
    (hP : run.phases = .obj P)
    (hN : List.lookup "normalize" P = some (.obj N))
    (hE : List.lookup "experience" N = some (.arr experience))
    (hj0 : 0 ≤ j) (hjlt : j < (experience.length : Int))
    (hjob : experience.get? j.toNat = some (.obj JF))
    (hB : List.lookup "bullets" JF = some (.arr bulletsJ))
    (hstr : strListOf bulletsJ = some bullets)
    (hbne : bullets.length ≠ 0)
    (hti : targetIndexOf bullets bidx ≠ []) :
    bulletsTransform s runId now (some st) (some j) bidx schemaResp fallbackText =
      ((saveRunPart s runId now
        { phases := some (.obj [("normalize", JValue.obj (setKey N "experience"
            (.arr (experience.set j.toNat (JValue.obj (setKey JF "bullets"
              (.arr ((applyRewrites bullets (targetIndexOf bullets bidx)
                (transformBulletsBatch bullets (targetIndexOf bullets bidx) schemaResp
                  fallbackText)).map JValue.str))))))))]) }).2,
       .ok runId st j.toNat (targetIndexOf bullets bidx).length (targetIndexOf bullets bidx)
         (applyRewrites bullets (targetIndexOf bullets bidx)
           (transformBulletsBatch bullets (targetIndexOf bullets bidx) schemaResp
             fallbackText))) := by
  have hlen0 : ¬ (experience.length = 0) := by
    intro hh
    rw [hh] at hjlt
    omega
  have hjv : ¬ (j < 0 ∨ (experience.length : Int) ≤ j) := by omega
  have htilen : ¬ ((targetIndexOf bullets bidx).length = 0) := by
    intro hh
    exact hti (List.length_eq_zero.1 hh)
  simp only [bulletsTransform, hst, Bool.not_true, Bool.false_eq_true, if_false, hrun, hP,
    getProp, hN, hE, if_neg hlen0, Option.getD_some, if_neg hjv, hjob, hB, jsTruthy,
    if_true, hstr, if_neg hbne, if_neg htilen, jsTruthyOpt, spreadFields]

/-- C10: frame property of `POST /api/run/:id/bullets/transform`.  On a
successful rewrite the response reports the validated target indices and
the rewritten bullet list, and only the bullets at those indices of the
targeted job change: every non-targeted bullet of that job, every other
job of the experience list, every other field of the normalize phase,
every other phase key, the run's scalar fields, and every other run in the
store keep their prior values. -/
theorem bulletsTransform_frame (s : Store) (runId now st : String) (j : Int)
    (bidx : Option (List Int)) (schemaResp : Option JValue) (fallbackText : String)
    (run : RunData) (P N : List (String × JValue)) (experience : List JValue)
    (JF : List (String × JValue)) (bulletsJ : List JValue) (bullets : List String)
    (hst : bulletStyles.contains st = true)
    (hrun : s.lookup runId = some run)
    (hP : run.phases = .obj P)
    (hN : List.lookup "normalize" P = some (.obj N))
    (hE : List.lookup "experience" N = some (.arr experience))
    (hj0 : 0 ≤ j) (hjlt : j < (experience.length : Int))
    (hjob : experience.get? j.toNat = some (.obj JF))
    (hB : List.lookup "bullets" JF = some (.arr bulletsJ))
    (hstr : strListOf bulletsJ = some bullets)
    (hbne : bullets.length ≠ 0)
    (hti : targetIndexOf bullets bidx ≠ [])
    (hNnd : (N.map (fun p => p.1)).Nodup)
    (hNdeep : nodupDeepFields N = true) :
    ∃ (run' : RunData) (P' N' : List (String × JValue)) (nb : List String),
      nb = applyRewrites bullets (targetIndexOf bullets bidx)
        (transformBulletsBatch bullets (targetIndexOf bullets bidx) schemaResp fallbackText) ∧
      (bulletsTransform s runId now (some st) (some j) bidx schemaResp fallbackText).2 =
        .ok runId st j.toNat (targetIndexOf bullets bidx).length (targetIndexOf bullets bidx) nb ∧
      List.lookup runId
        (bulletsTransform s runId now (some st) (some j) bidx schemaResp fallbackText).1 =
        some run' ∧
      (∀ id', id' ≠ runId →
        List.lookup id'
          (bulletsTransform s runId now (some st) (some j) bidx schemaResp fallbackText).1 =
          List.lookup id' s) ∧
      run'.status = run.status ∧
      run'.createdAt = run.createdAt ∧
      run'.background = run.background ∧
      run'.targetRole = run.targetRole ∧
      run'.phases = .obj P' ∧
      (∀ k, k ≠ "normalize" → List.lookup k P' = List.lookup k P) ∧
      List.lookup "normalize" P' = some (.obj N') ∧
      (∀ k, k ≠ "experience" → List.lookup k N' = List.lookup k N) ∧
      List.lookup "experience" N' = some (.arr (experience.set j.toNat
        (JValue.obj (setKey JF "bullets" (.arr (nb.map JValue.str)))))) ∧
      (∀ j', j' ≠ j.toNat →
        (experience.set j.toNat
          (JValue.obj (setKey JF "bullets" (.arr (nb.map JValue.str))))).get? j' =
          experience.get? j') ∧
      nb.length = bullets.length ∧
      (∀ i, i ∉ targetIndexOf bullets bidx → nb.get? i = bullets.get? i) := by
  have hsucc := bulletsTransform_success s runId now st j bidx schemaResp fallbackText run P N
    experience JF bulletsJ bullets hst hrun hP hN hE hj0 hjlt hjob hB hstr hbne hti
  set ti := targetIndexOf bullets bidx with hti_eq
  set rew := transformBulletsBatch bullets ti schemaResp fallbackText with hrew_eq
  set nb := applyRewrites bullets ti rew with hnb_eq
  set newJob := JValue.obj (setKey JF "bullets" (.arr (nb.map JValue.str))) with hnj_eq
  set newE := experience.set j.toNat newJob with hne_eq
  set pn := JValue.obj (setKey N "experience" (.arr newE)) with hpn_eq
  set patch : RunInit := { phases := some (.obj [("normalize", pn)]) } with hpatch_eq
  have hpair : (saveRunPart s runId now patch).2 =
      setKey s runId (saveRunPart s runId now patch).1 := rfl
  have hbase : mergeBase (.obj P) "normalize" = .obj N :=
    mergeBase_of_present _ _ _ (by rw [propGet_obj]; exact hN) (by intro hh; cases hh)
  have hmerged : deepMergeVal (.obj P) "normalize" pn =
      .obj (deepMergeGo (.obj N) N (setKey N "experience" (.arr newE))) := by
    rw [hpn_eq]
    simp only [deepMergeVal]
    rw [hbase]
    rfl
  have hphases : (saveRunPart s runId now patch).1.phases =
      .obj (setKey P "normalize" (deepMergeVal (.obj P) "normalize" pn)) := by
    simp [saveRunPart, hrun, hP, hpatch_eq, deepMerge, spreadFields, deepMergeGo_cons,
      deepMergeGo_nil]
  have hes_nd : ((setKey N "experience" (.arr newE)).map (fun p => p.1)).Nodup :=
    nodup_keys_setKey _ _ _ hNnd
  refine ⟨(saveRunPart s runId now patch).1,
    setKey P "normalize" (.obj (deepMergeGo (.obj N) N (setKey N "experience" (.arr newE)))),
    deepMergeGo (.obj N) N (setKey N "experience" (.arr newE)), nb,
    rfl, ?_, ?_, ?_, ?_, ?_, ?_, ?_, ?_, ?_, ?_, ?_, ?_, ?_, ?_, ?_⟩
  · rw [hsucc]
  · rw [hsucc]
    show List.lookup runId (saveRunPart s runId now patch).2 = _
    rw [hpair]
    exact lookup_setKey_self _ _ _
  · intro id' hid
    rw [hsucc]
    show List.lookup id' (saveRunPart s runId now patch).2 = _
    rw [hpair]
    exact lookup_setKey_ne _ _ _ _ hid
  · simp [saveRunPart, hrun, hpatch_eq]
  · simp [saveRunPart, hrun, hpatch_eq]
  · simp [saveRunPart, hrun, hpatch_eq]
  · simp [saveRunPart, hrun, hpatch_eq]
  · rw [hphases, hmerged]
  · intro k hk
    exact lookup_setKey_ne _ _ _ _ hk
  · exact lookup_setKey_self _ _ _
  · intro k hk
    have hlk : List.lookup k (setKey N "experience" (.arr newE)) = List.lookup k N :=
      lookup_setKey_ne _ _ _ _ hk
    cases hkN : List.lookup k N with
    | none =>
        rw [deepMergeGo_lookup_none _ _ _ _ (hlk.trans hkN)]
        exact hkN
    | some v =>
        rw [deepMergeGo_lookup_mem _ _ _ _ _ hes_nd (hlk.trans hkN)]
        have hmem := lookup_mem _ _ _ hkN
        have hndv : nodupDeep v = true := nodupDeepFields_mem _ _ hNdeep hmem
        rw [deepMergeVal_self _ _ _ (by rw [propGet_obj]; exact hkN) hndv]
  · rw [deepMergeGo_lookup_mem _ _ _ _ _ hes_nd (lookup_setKey_self _ _ _)]
    rw [deepMergeVal_nonobj _ _ _ (fun vf hh => by cases hh)]
  · intro j' hj'
    rw [List.get?_eq_getElem?, List.get?_eq_getElem?,
      List.getElem?_set_ne (Ne.symm hj')]
  · rw [hnb_eq]
    exact applyRewrites_length _ _ _
  · intro i hi
    rw [hnb_eq]
    exact applyRewrites_get_not_mem _ _ _ _ hi

/-- C10 witness: rewriting only bullet 1 of the single job leaves bullet 0
in place and reports the rewritten list. -/
theorem bulletsTransform_frame_witness :
    (bulletsTransform
      [("r1", { id := "r1", createdAt := "t0", updatedAt := "t0", status := "done",
                phases := .obj [("normalize", .obj [("name", .str "X"),
                  ("experience", .arr [.obj [("title", .str "T"),
                    ("bullets", .arr [.str "b0", .str "b1"])]])])] })]
      "r1" "t1" (some "short") (some 0) (some [1]) none "improved").2 =
      .ok "r1" "short" 0 1 [1] ["b0", "improved"] := by
  obtain ⟨run', P', N', nb, hnb, hresp, -⟩ := bulletsTransform_frame
    [("r1", { id := "r1", createdAt := "t0", updatedAt := "t0", status := "done",
              phases := .obj [("normalize", .obj [("name", .str "X"),
                ("experience", .arr [.obj [("title", .str "T"),
                  ("bullets", .arr [.str "b0", .str "b1"])]])])] })]
    "r1" "t1" "short" 0 (some [1]) none "improved"
    { id := "r1", createdAt := "t0", updatedAt := "t0", status := "done",
      phases := .obj [("normalize", .obj [("name", .str "X"),
        ("experience", .arr [.obj [("title", .str "T"),
          ("bullets", .arr [.str "b0", .str "b1"])]])])] }
    [("normalize", .obj [("name", .str "X"),
      ("experience", .arr [.obj [("title", .str "T"),
        ("bullets", .arr [.str "b0", .str "b1"])]])])]
    [("name", .str "X"),
     ("experience", .arr [.obj [("title", .str "T"),
       ("bullets", .arr [.str "b0", .str "b1"])]])]
    [.obj [("title", .str "T"), ("bullets", .arr [.str "b0", .str "b1"])]]
    [("title", .str "T"), ("bullets", .arr [.str "b0", .str "b1"])]
    [.str "b0", .str "b1"] ["b0", "b1"]
    rfl rfl rfl rfl rfl (by decide) (by decide) rfl rfl rfl (by decide) (by decide)
    (by decide) rfl
  rw [hresp]
  subst hnb
  rfl

end Gov2Private
